import Mathlib

/-!
Shallow embedding of the khoj-sync synchronization engine
(src/khoj-sync.py): change detection against persisted state, batch
construction, the transfer loop with its retry/backoff counter, the
deletion phase, per-batch persistence, and the continuous scheduler.

Timestamps are modelled as naturals; the isoformat/fromisoformat pair of
the datetime library is modelled as an abstract codec (a pair of an
encoder and a decoder), since the engine only ever round-trips
timestamps through it and compares decoded values.
-/

namespace KhojSync

/-- The persisted sync state artifact: a JSON object mapping a relative
path to a timestamp string or the literal string never. Python dicts
preserve insertion order, hence an association list. -/
abbrev SyncMap := List (String × String)

/-- Abstract model of datetime.isoformat / datetime.fromisoformat,
with time points modelled as naturals. -/
structure TimeCodec where
  enc : Nat → String
  dec : String → Option Nat

/-- Outcome of one HTTP exchange (requests.patch): a response with a
success status and a body, a response with a non-success status, or a
raised transport exception. -/
inductive BatchResult where
  | ok (body : String)
  | err (status : Nat)
  | exn
deriving DecidableEq, Repr

/-- Observable effects of the engine: a wire exchange of an upload or
deletion batch (recording the raw batch, the multipart part names and
the outcome), a write of the state artifact, a sleep, and a call of
sys.exit. -/
inductive Ev where
  | sendU (batch parts : List String) (resp : BatchResult)
  | sendD (batch parts : List String) (resp : BatchResult)
  | persist (st : SyncMap)
  | sleep (n : Nat)
  | exitCall (code : Nat)
deriving DecidableEq, Repr

/-- How one invocation of sync() ends: a normal return, a SystemExit
raised by sys.exit(), or any other Python exception. -/
inductive CycleEnd where
  | normal
  | sysExit
  | pyExn
deriving DecidableEq, Repr

/-- Mutable state threaded through the batch loops: the in-memory
sync_files dict, the consecutive_failures counter, and the remaining
oracle of exchange outcomes. -/
structure LState where
  st : SyncMap
  fails : Nat
  rs : List BatchResult
deriving DecidableEq, Repr

/-- Tuning parameters from the config artifact, plus the manifest-mode
flag (a files list was given on the command line). -/
structure Params where
  maxUploads : Nat
  batchSize : Nat
  manifest : Bool
deriving DecidableEq, Repr

/-- Per-cycle environment: the catalog of candidate files (relative
path and modification time, as produced by the glob scan or the
manifest), the wall-clock time read at the start of the cycle, and the
oracle of exchange outcomes. -/
structure CycleEnv where
  catalog : List (String × Nat)
  syncTime : Nat
  responses : List BatchResult
deriving DecidableEq, Repr

/-- Result of one cycle: the list of exchanges (each with the loop
state right after it and the events it emitted), the final loop state,
and how the cycle ended. -/
structure CycleOut where
  blocks : List (LState × List Ev)
  final : LState
  res : CycleEnd
deriving Repr

/-! ## Path handling (os.path.relpath, os.path.basename) -/

/-- One step of lexical path normalization, as os.path.normpath does
for relative paths: drop empty and dot components, resolve dot-dot
against the stack. The stack is kept reversed. -/
def normStep (stack : List String) (c : String) : List String :=
  if c = "" ∨ c = "." then stack
  else if c = ".." then
    match stack with
    | [] => [".."]
    | top :: rest => if top = ".." then ".." :: top :: rest else rest
  else c :: stack

/-- Split a character list on a separator, keeping empty pieces, as
str.split does. -/
def splitOnChar (sep : Char) : List Char → List (List Char)
  | [] => [[]]
  | c :: t =>
    let r := splitOnChar sep t
    if c = sep then [] :: r
    else
      match r with
      | [] => [[c]]
      | h :: t2 => (c :: h) :: t2

/-- The slash-separated components of a path. -/
def pathComponents (p : String) : List String :=
  (splitOnChar '/' p.data).map String.mk

/-- Model of os.path.relpath applied to an already-relative path: the
path is resolved against the working directory and re-relativized to
it, which amounts to lexical normalization of the path. -/
def relpathNorm (p : String) : String :=
  let comps := ((pathComponents p).foldl normStep []).reverse
  if comps = [] then "."
  else String.mk (List.intercalate ['/'] (comps.map String.data))

/-- Model of os.path.basename: the last slash-separated component. -/
def basename (p : String) : String :=
  ((pathComponents p).getLast?).getD ""

/-- Substring search over character lists: does the needle occur as a
contiguous run of the haystack. -/
def subSearch (n : List Char) : List Char → Bool
  | [] => n.isEmpty
  | c :: t => n.isPrefixOf (c :: t) || subSearch n t

/-- Python substring containment: needle in haystack. -/
def strContains (haystack needle : String) : Bool :=
  subSearch needle.data haystack.data

/-! ## Association-list primitives for the sync_files dict -/

/-- Value lookup: sync_files.get(path). -/
def lookupV : SyncMap → String → Option String
  | [], _ => none
  | kv :: rest, k => if kv.1 = k then some kv.2 else lookupV rest k

/-- Assignment sync_files[path] = v: update in place when the key is
present (Python dicts keep the original position), append otherwise. -/
def setEntry : SyncMap → String → String → SyncMap
  | [], k, v => [(k, v)]
  | kv :: rest, k, v => if kv.1 = k then (k, v) :: rest else kv :: setEntry rest k v

/-- Deletion del sync_files[path]. -/
def delEntry : SyncMap → String → SyncMap
  | [], _ => []
  | kv :: rest, k => if kv.1 = k then delEntry rest k else kv :: delEntry rest k

/-- The keys of the state artifact are pairwise distinct (always true
of a Python dict). -/
def KeysNodup (st : SyncMap) : Prop := (st.map (·.1)).Nodup

/-! ## Change detection (lines 190-199 of sync, 422-429 of list_files) -/

/-- last_sync_str = sync_files.get(path) or never: a missing entry and
a falsy (empty) value both coerce to never. -/
def lastSyncStr (st : SyncMap) (path : String) : String :=
  match lookupV st path with
  | none => "never"
  | some v => if v = "" then "never" else v

/-- Upload-candidate test for one catalog entry. Returns none when the
recorded string is neither never nor decodable, in which case
datetime.fromisoformat raises and the cycle dies. -/
def uploadCandidate? (tc : TimeCodec) (st : SyncMap) (path : String) (mtime : Nat) :
    Option Bool :=
  let s := lastSyncStr st path
  if s = "never" then some true
  else (tc.dec s).map (fun t => decide (mtime > t))

/-- The upload-candidate sublist of the catalog, in catalog order; none
when some recorded timestamp fails to parse. -/
def detectUploads (tc : TimeCodec) (st : SyncMap) : List (String × Nat) → Option (List String)
  | [] => some []
  | pm :: rest => do
    let b ← uploadCandidate? tc st pm.1 pm.2
    let tail ← detectUploads tc st rest
    pure (if b then pm.1 :: tail else tail)

/-! ## Batch construction -/

/-- Fueled chunking; the fuel dominates the list length. -/
def chunksAux (bsz : Nat) : Nat → List α → List (List α)
  | 0, _ => []
  | _ + 1, [] => []
  | fuel + 1, a :: l => ((a :: l).take bsz) :: chunksAux bsz fuel ((a :: l).drop bsz)

/-- The batches files[i : i + bsz] for i in range(0, len, bsz). -/
def chunks (bsz : Nat) (l : List α) : List (List α) :=
  chunksAux bsz l.length l

/-! ## The transfer loop (lines 202-269 and 290-351) -/

/-- The multipart part names: name = os.path.relpath(path) for each
file of the batch. -/
def wireNames (batch : List String) : List String :=
  batch.map relpathNorm

/-- Per-file success interpretation of a success-status upload
response: a file is recorded as synced iff its normalized relative
path occurs in the response text. -/
def applyUpload (isoStr body : String) (st : SyncMap) (batch : List String) : SyncMap :=
  batch.foldl
    (fun st path => if strContains body (relpathNorm path) then setEntry st path isoStr else st)
    st

/-- Per-file success interpretation of a success-status deletion
response: a confirmed path is dropped from the state. -/
def applyDelete (body : String) (st : SyncMap) (batch : List String) : SyncMap :=
  batch.foldl
    (fun st path => if strContains body (relpathNorm path) then delEntry st path else st)
    st

/-- The backoff tail of one failed exchange: sleep 30 when the counter
exceeds 3, then sys.exit() when it exceeds 6. -/
def tailEvents (fails : Nat) : List Ev :=
  (if fails > 3 then [Ev.sleep 30] else []) ++ (if fails > 6 then [Ev.exitCall 0] else [])

/-- One upload-batch iteration: send the batch, interpret the
response, persist, back off, maybe abort. An exhausted oracle behaves
like a transport exception. -/
def uploadStep (isoStr : String) (s : LState) (batch : List String) :
    LState × List Ev × Option CycleEnd :=
  match s.rs with
  | [] => (⟨s.st, s.fails, []⟩, [Ev.sendU batch (wireNames batch) .exn], some .pyExn)
  | r :: rest =>
    match r with
    | .exn => (⟨s.st, s.fails, rest⟩, [Ev.sendU batch (wireNames batch) .exn], some .pyExn)
    | .ok body =>
      let st := applyUpload isoStr body s.st batch
      (⟨st, 0, rest⟩, [Ev.sendU batch (wireNames batch) (.ok body), Ev.persist st], none)
    | .err c =>
      let f := s.fails + 1
      (⟨s.st, f, rest⟩,
        Ev.sendU batch (wireNames batch) (.err c) :: Ev.persist s.st :: tailEvents f,
        if f > 6 then some .sysExit else none)

/-- One deletion-batch iteration; parts carry empty content on the
wire, success interpretation mirrors the upload side but deletes. -/
def deleteStep (s : LState) (batch : List String) :
    LState × List Ev × Option CycleEnd :=
  match s.rs with
  | [] => (⟨s.st, s.fails, []⟩, [Ev.sendD batch (wireNames batch) .exn], some .pyExn)
  | r :: rest =>
    match r with
    | .exn => (⟨s.st, s.fails, rest⟩, [Ev.sendD batch (wireNames batch) .exn], some .pyExn)
    | .ok body =>
      let st := applyDelete body s.st batch
      (⟨st, 0, rest⟩, [Ev.sendD batch (wireNames batch) (.ok body), Ev.persist st], none)
    | .err c =>
      let f := s.fails + 1
      (⟨s.st, f, rest⟩,
        Ev.sendD batch (wireNames batch) (.err c) :: Ev.persist s.st :: tailEvents f,
        if f > 6 then some .sysExit else none)

/-- Run a batch loop until the batches are exhausted or an iteration
aborts (sys.exit or an escaping exception). -/
def runBatches (step : LState → List String → LState × List Ev × Option CycleEnd) :
    LState → List (List String) → LState × List (LState × List Ev) × Option CycleEnd
  | s, [] => (s, [], none)
  | s, b :: bs =>
    match step s b with
    | (s1, evs, some e) => (s1, [(s1, evs)], some e)
    | (s1, evs, none) =>
      let r := runBatches step s1 bs
      (r.1, (s1, evs) :: r.2.1, r.2.2)

/-! ## Deletion detection (lines 276-287) -/

/-- Purge of state entries that are absent from the catalog and were
never confirmed remotely (value never): removed in memory, silently. -/
def purgeNever (allFiles : List String) (st : SyncMap) : SyncMap :=
  st.filter (fun kv => !(!(allFiles.contains kv.1) && (kv.2 == "never")))

/-- files_to_delete: state entries absent from the catalog whose value
is not the literal never. -/
def deleteCandidates (allFiles : List String) (st : SyncMap) : List String :=
  (st.filter (fun kv => !(allFiles.contains kv.1) && !(kv.2 == "never"))).map (·.1)

/-! ## One synchronization cycle (the body of sync) -/

/-- One full cycle: detect changes, upload in batches, then (except in
manifest mode) purge never entries, queue deletions and send them in
batches. The failure counter and the response oracle flow from the
upload phase into the deletion phase unchanged. -/
def sync (tc : TimeCodec) (pms : Params) (st0 : SyncMap) (env : CycleEnv) : CycleOut :=
  match detectUploads tc st0 env.catalog with
  | none => ⟨[], ⟨st0, 0, env.responses⟩, .pyExn⟩
  | some cands =>
    let ups := cands.take pms.maxUploads
    let isoStr := tc.enc env.syncTime
    let up := runBatches (uploadStep isoStr) ⟨st0, 0, env.responses⟩ (chunks pms.batchSize ups)
    match up.2.2 with
    | some e => ⟨up.2.1, up.1, e⟩
    | none =>
      if pms.manifest then ⟨up.2.1, up.1, .normal⟩
      else
        let allFiles := env.catalog.map (·.1)
        let st2 := purgeNever allFiles up.1.st
        let dels := deleteCandidates allFiles up.1.st
        let del := runBatches deleteStep ⟨st2, up.1.fails, up.1.rs⟩ (chunks pms.batchSize dels)
        ⟨up.2.1 ++ del.2.1, del.1,
          match del.2.2 with
          | some e => e
          | none => .normal⟩

/-! ## Observations on a cycle -/

/-- The flat event trace of a cycle, block after block. -/
def cycleTrace (out : CycleOut) : List Ev :=
  (out.blocks.map (·.2)).flatten

/-- The last written snapshot of the state artifact. -/
def lastPersist? (evs : List Ev) : Option SyncMap :=
  evs.foldl (fun acc e => match e with | .persist s => some s | _ => acc) none

/-- What the state artifact holds on disk after the cycle: the last
persisted snapshot, or the initial artifact when nothing was written. -/
def persistedState (init : SyncMap) (out : CycleOut) : SyncMap :=
  (lastPersist? (cycleTrace out)).getD init

/-- The raw batch of an upload exchange event. -/
def sendUBatch? : Ev → Option (List String)
  | .sendU b _ _ => some b
  | _ => none

/-- The raw batch of a deletion exchange event. -/
def sendDBatch? : Ev → Option (List String)
  | .sendD b _ _ => some b
  | _ => none

/-- The upload batches that were put on the wire. -/
def sentUploadBatches (out : CycleOut) : List (List String) :=
  (cycleTrace out).filterMap sendUBatch?

/-- The deletion batches that were put on the wire. -/
def sentDeleteBatches (out : CycleOut) : List (List String) :=
  (cycleTrace out).filterMap sendDBatch?

/-- Number of files the cycle uploaded (files put on the wire in
upload exchanges). -/
def uploadsSent (out : CycleOut) : Nat :=
  (sentUploadBatches out).flatten.length

/-- Exit status of the whole process for a one-shot run (sync --once):
sys.exit() with no argument raises SystemExit(None), which terminates
the interpreter with status 0; an uncaught exception terminates it
with status 1; a normal return exits 0. -/
def onceExitCode (out : CycleOut) : Nat :=
  match out.res with
  | .sysExit => 0
  | .pyExn => 1
  | .normal => 0

/-- The continuous scheduler sync_continuously: run a cycle, swallow
whatever escapes it (the bare except clause catches every exception,
SystemExit included), sleep, repeat. Each next cycle reads the state
the previous one persisted. Modelled over a finite list of per-cycle
environments. -/
def syncContinuously (tc : TimeCodec) (pms : Params) (freq : Nat) :
    SyncMap → List CycleEnv → List Ev × SyncMap
  | st, [] => ([], st)
  | st, env :: envs =>
    let out := sync tc pms st env
    let st1 := persistedState st out
    let r := syncContinuously tc pms freq st1 envs
    (cycleTrace out ++ Ev.sleep freq :: r.1, r.2)

/-! ## Derived notions used by the statements -/

/-- The exchange outcome recorded in the leading wire event of a
block. -/
def blockResp (evs : List Ev) : BatchResult :=
  match evs with
  | Ev.sendU _ _ r :: _ => r
  | Ev.sendD _ _ r :: _ => r
  | _ => .exn

/-- The consecutive-failure counter value after each exchange of a
run, reconstructed from the exchange outcomes alone: a success-status
exchange resets it to zero, a non-success status increments it, a
transport exception leaves it untouched (the cycle dies instead). -/
def failsOfTrace (f0 : Nat) : List (List Ev) → List Nat
  | [] => []
  | evs :: rest =>
    let f := match blockResp evs with
      | .ok _ => 0
      | .err _ => f0 + 1
      | .exn => f0
    f :: failsOfTrace f rest

/-- The state artifact respects its documented contract at every
entry: the value is the literal never or a decodable timestamp. -/
def WFState (tc : TimeCodec) (st : SyncMap) : Prop :=
  ∀ kv ∈ st, kv.2 = "never" ∨ (kv.2 ≠ "" ∧ (tc.dec kv.2).isSome)

/-- An exchange outcome with a success status whose body mentions the
normalized relative path of every file of the given universe. -/
def OkAll (names : List String) (r : BatchResult) : Prop :=
  ∃ body, r = .ok body ∧ ∀ p ∈ names, strContains body (relpathNorm p) = true

/-- Is this event a deletion exchange. -/
def isDeleteSend : Ev → Bool
  | .sendD _ _ _ => true
  | _ => false

/-- Is this event an upload exchange. -/
def isUploadSend : Ev → Bool
  | .sendU _ _ _ => true
  | _ => false

/-- The event is a deletion exchange whose batch contains the path and
whose response has a success status and mentions the normalized
relative path of the file: the engine takes this as confirmation that
the remote side deleted the file. -/
def confirmsDelete (p : String) (e : Ev) : Prop :=
  ∃ b parts body, e = Ev.sendD b parts (BatchResult.ok body) ∧ p ∈ b ∧
    strContains body (relpathNorm p) = true

/-- A concrete timestamp codec for instantiating the model in closed
runs: a time point t is written as t + 1 repetitions of one letter, so
that decoding is length - 1, no code is the empty string and no code
is the literal never. -/
def unaryCodec : TimeCodec :=
  ⟨fun t => String.mk (List.replicate (t + 1) 'I'), fun s => some (s.length - 1)⟩

/-! ## Lemmas: the state dictionary -/

theorem lookupV_eq_none_iff (st : SyncMap) (p : String) :
    lookupV st p = none ↔ p ∉ st.map (·.1) := by
  induction st with
  | nil => simp [lookupV]
  | cons kv rest ih =>
    by_cases h : kv.1 = p
    · simp [lookupV, h]
    · simp [lookupV, h, ih, Ne.symm h]

theorem mem_of_lookupV (st : SyncMap) (p v : String) (h : lookupV st p = some v) :
    (p, v) ∈ st := by
  induction st with
  | nil => simp [lookupV] at h
  | cons kv rest ih =>
    by_cases hk : kv.1 = p
    · simp only [lookupV, if_pos hk] at h
      have : kv = (p, v) := Prod.ext hk (by simpa using h)
      rw [← this]
      exact List.mem_cons_self kv rest
    · simp only [lookupV, if_neg hk] at h
      exact List.mem_cons_of_mem _ (ih h)

theorem lookupV_setEntry (st : SyncMap) (k v q : String) :
    lookupV (setEntry st k v) q = if q = k then some v else lookupV st q := by
  induction st with
  | nil =>
    by_cases h : q = k
    · simp [setEntry, lookupV, h]
    · simp [setEntry, lookupV, h, Ne.symm h]
  | cons kv rest ih =>
    simp only [setEntry]
    by_cases hk : kv.1 = k
    · rw [if_pos hk]
      by_cases hq : q = k
      · simp [lookupV, hq]
      · have hknq : ¬ kv.1 = q := fun hh => hq (hh.symm.trans hk)
        have hknq2 : ¬ (k : String) = q := fun hh => hq hh.symm
        simp [lookupV, hq, hknq, hknq2]
    · rw [if_neg hk]
      by_cases hq : kv.1 = q
      · have hqk : ¬ q = k := fun hh => hk (hq.trans hh)
        simp [lookupV, hq, hqk]
      · simp only [lookupV, if_neg hq]
        exact ih

theorem lookupV_delEntry (st : SyncMap) (k q : String) :
    lookupV (delEntry st k) q = if q = k then none else lookupV st q := by
  induction st with
  | nil => simp [delEntry, lookupV]
  | cons kv rest ih =>
    by_cases hk : kv.1 = k
    · rw [show delEntry (kv :: rest) k = delEntry rest k from by simp [delEntry, hk], ih]
      by_cases hq : q = k
      · simp [hq]
      · have hknq : ¬ kv.1 = q := fun hh => hq ((hh.symm.trans hk))
        simp [lookupV, hq, hknq]
    · rw [show delEntry (kv :: rest) k = kv :: delEntry rest k from by simp [delEntry, hk]]
      by_cases hq : kv.1 = q
      · have hqk : ¬ q = k := fun hh => hk (hq.trans hh)
        simp [lookupV, hq, hqk]
      · simp [lookupV, hq, ih]

theorem lookupV_foldl_set (l : List String) (st : SyncMap) (v q : String) :
    lookupV (l.foldl (fun st p => setEntry st p v) st) q =
      if q ∈ l then some v else lookupV st q := by
  induction l generalizing st with
  | nil => simp
  | cons p tail ih =>
    simp only [List.foldl_cons, ih, lookupV_setEntry]
    by_cases h1 : q ∈ tail <;> by_cases h2 : q = p <;> simp [h1, h2]

theorem lookupV_foldl_del (l : List String) (st : SyncMap) (q : String) :
    lookupV (l.foldl (fun st p => delEntry st p) st) q =
      if q ∈ l then none else lookupV st q := by
  induction l generalizing st with
  | nil => simp
  | cons p tail ih =>
    simp only [List.foldl_cons, ih, lookupV_delEntry]
    by_cases h1 : q ∈ tail <;> by_cases h2 : q = p <;> simp [h1, h2]

theorem lookupV_applyUpload (iso body : String) (st : SyncMap) (batch : List String)
    (q : String) :
    lookupV (applyUpload iso body st batch) q =
      if q ∈ batch ∧ strContains body (relpathNorm q) = true then some iso
      else lookupV st q := by
  induction batch generalizing st with
  | nil => simp [applyUpload]
  | cons p tail ih =>
    simp only [applyUpload, List.foldl_cons] at *
    by_cases hq : q = p
    · subst hq
      by_cases hc : strContains body (relpathNorm q) = true
      · simp [hc, ih, lookupV_setEntry]
      · simp [hc, ih]
    · by_cases hc : strContains body (relpathNorm p) = true
      · simp [hc, ih, lookupV_setEntry, hq]
      · simp [hc, ih, hq]

theorem lookupV_applyDelete (body : String) (st : SyncMap) (batch : List String)
    (q : String) :
    lookupV (applyDelete body st batch) q =
      if q ∈ batch ∧ strContains body (relpathNorm q) = true then none
      else lookupV st q := by
  induction batch generalizing st with
  | nil => simp [applyDelete]
  | cons p tail ih =>
    simp only [applyDelete, List.foldl_cons] at *
    by_cases hq : q = p
    · subst hq
      by_cases hc : strContains body (relpathNorm q) = true
      · simp [hc, ih, lookupV_delEntry]
      · simp [hc, ih]
    · by_cases hc : strContains body (relpathNorm p) = true
      · simp [hc, ih, lookupV_delEntry, hq]
      · simp [hc, ih, hq]

theorem applyUpload_all (iso body : String) (st : SyncMap) (batch : List String)
    (h : ∀ p ∈ batch, strContains body (relpathNorm p) = true) :
    applyUpload iso body st batch = batch.foldl (fun st p => setEntry st p iso) st := by
  induction batch generalizing st with
  | nil => rfl
  | cons p tail ih =>
    simp only [applyUpload, List.foldl_cons]
    rw [if_pos (h p (List.mem_cons_self p tail))]
    exact ih _ (fun q hq => h q (List.mem_cons_of_mem _ hq))

theorem applyDelete_all (body : String) (st : SyncMap) (batch : List String)
    (h : ∀ p ∈ batch, strContains body (relpathNorm p) = true) :
    applyDelete body st batch = batch.foldl (fun st p => delEntry st p) st := by
  induction batch generalizing st with
  | nil => rfl
  | cons p tail ih =>
    simp only [applyDelete, List.foldl_cons]
    rw [if_pos (h p (List.mem_cons_self p tail))]
    exact ih _ (fun q hq => h q (List.mem_cons_of_mem _ hq))

/-! ## Lemmas: the purge and the deletion queue -/

theorem lookupV_filter_none (st : SyncMap) (f : String × String → Bool) (p : String)
    (h : lookupV st p = none) : lookupV (st.filter f) p = none := by
  induction st with
  | nil => simp [lookupV]
  | cons kv rest ih =>
    by_cases hk : kv.1 = p
    · simp [lookupV, hk] at h
    · simp only [lookupV, if_neg hk] at h
      rw [List.filter_cons]
      by_cases hf : f kv = true
      · simp only [hf, if_pos]
        simp only [lookupV, if_neg hk]
        exact ih h
      · simp only [hf, Bool.false_eq_true, if_neg]
        exact ih h

theorem lookupV_filter_of_pass (st : SyncMap) (f : String × String → Bool) (p v : String)
    (h : lookupV st p = some v) (hf : f (p, v) = true) :
    lookupV (st.filter f) p = some v := by
  induction st with
  | nil => simp [lookupV] at h
  | cons kv rest ih =>
    by_cases hk : kv.1 = p
    · simp only [lookupV, if_pos hk] at h
      have hkv : kv = (p, v) := Prod.ext hk (by simpa using h)
      rw [List.filter_cons, hkv, if_pos (by rw [hf])]
      simp [lookupV]
    · simp only [lookupV, if_neg hk] at h
      rw [List.filter_cons]
      by_cases hg : f kv = true
      · simp only [hg, if_pos]
        simp only [lookupV, if_neg hk]
        exact ih h
      · simp only [hg, Bool.false_eq_true, if_neg]
        exact ih h

theorem lookupV_filter_of_fail (st : SyncMap) (f : String × String → Bool) (p v : String)
    (hnd : KeysNodup st) (h : lookupV st p = some v) (hf : f (p, v) = false) :
    lookupV (st.filter f) p = none := by
  induction st with
  | nil => simp [lookupV] at h
  | cons kv rest ih =>
    have hnd2 : KeysNodup rest := (List.nodup_cons.mp hnd).2
    by_cases hk : kv.1 = p
    · simp only [lookupV, if_pos hk] at h
      have hkv : kv = (p, v) := Prod.ext hk (by simpa using h)
      rw [List.filter_cons, hkv, if_neg (by rw [hf]; exact Bool.false_ne_true)]
      apply lookupV_filter_none
      rw [lookupV_eq_none_iff]
      have := (List.nodup_cons.mp hnd).1
      exact fun hm => this (hkv ▸ (hk ▸ hm : kv.1 ∈ rest.map (·.1)))
    · simp only [lookupV, if_neg hk] at h
      rw [List.filter_cons]
      by_cases hg : f kv = true
      · simp only [hg, if_pos]
        simp only [lookupV, if_neg hk]
        exact ih hnd2 h
      · simp only [hg, Bool.false_eq_true, if_neg]
        exact ih hnd2 h

theorem lookupV_purgeNever_of_contains (af : List String) (st : SyncMap) (p : String)
    (h : af.contains p = true) :
    lookupV (purgeNever af st) p = lookupV st p := by
  unfold purgeNever
  cases hlv : lookupV st p with
  | none => exact lookupV_filter_none st _ p hlv
  | some v =>
    apply lookupV_filter_of_pass st _ p v hlv
    have hmem : p ∈ af := by simpa using h
    simp [hmem]

theorem lookupV_purgeNever_of_ne_never (af : List String) (st : SyncMap) (p v : String)
    (h : lookupV st p = some v) (hv : v ≠ "never") :
    lookupV (purgeNever af st) p = some v := by
  unfold purgeNever
  apply lookupV_filter_of_pass st _ p v h
  simp [hv]

theorem lookupV_purgeNever_none (af : List String) (st : SyncMap) (p : String)
    (hnd : KeysNodup st) (h : lookupV st p = some "never") (hc : af.contains p = false) :
    lookupV (purgeNever af st) p = none := by
  unfold purgeNever
  apply lookupV_filter_of_fail st _ p "never" hnd h
  have hna : p ∉ af := by simpa using hc
  simp [hna]

theorem mem_deleteCandidates (af : List String) (st : SyncMap) (q : String)
    (h : q ∈ deleteCandidates af st) : q ∈ st.map (·.1) := by
  simp only [deleteCandidates, List.mem_map] at h ⊢
  obtain ⟨kv, hm, rfl⟩ := h
  exact ⟨kv, List.mem_of_mem_filter hm, rfl⟩

theorem count_deleteCandidates (af : List String) (st : SyncMap) (p v : String)
    (hnd : KeysNodup st) (h : lookupV st p = some v) (hv : v ≠ "never")
    (hc : af.contains p = false) :
    (deleteCandidates af st).count p = 1 := by
  have hm : (p, v) ∈ st := mem_of_lookupV st p v h
  have hna : p ∉ af := by simpa using hc
  have hf : (!(af.contains p) && !(v == "never")) = true := by simp [hna, hv]
  have hmf : (p, v) ∈ st.filter (fun kv => !(af.contains kv.1) && !(kv.2 == "never")) :=
    List.mem_filter.mpr ⟨hm, hf⟩
  have hmem : p ∈ deleteCandidates af st := by
    simp only [deleteCandidates, List.mem_map]
    exact ⟨(p, v), hmf, rfl⟩
  have hnd2 : (deleteCandidates af st).Nodup := by
    unfold deleteCandidates
    exact List.Nodup.sublist ((List.filter_sublist st).map (·.1)) hnd
  exact List.count_eq_one_of_mem hnd2 hmem

/-! ## Lemmas: key distinctness is preserved -/

theorem keys_setEntry (st : SyncMap) (k v : String) :
    (setEntry st k v).map (·.1) =
      if k ∈ st.map (·.1) then st.map (·.1) else st.map (·.1) ++ [k] := by
  induction st with
  | nil => simp [setEntry]
  | cons kv rest ih =>
    by_cases hk : kv.1 = k
    · simp [setEntry, hk]
    · simp only [setEntry, if_neg hk, List.map_cons, ih]
      by_cases hm : k ∈ rest.map (·.1) <;> simp [hm, Ne.symm hk]

theorem KeysNodup_setEntry (st : SyncMap) (k v : String) (h : KeysNodup st) :
    KeysNodup (setEntry st k v) := by
  unfold KeysNodup at *
  rw [keys_setEntry]
  by_cases hm : k ∈ st.map (·.1)
  · simpa [hm]
  · simp [hm, List.nodup_append, h]

theorem delEntry_sublist (st : SyncMap) (k : String) : (delEntry st k).Sublist st := by
  induction st with
  | nil => simp [delEntry]
  | cons kv rest ih =>
    by_cases hk : kv.1 = k
    · simp only [delEntry, if_pos hk]
      exact ih.trans (List.sublist_cons_self kv rest)
    · simp only [delEntry, if_neg hk]
      exact ih.cons₂ kv

theorem KeysNodup_delEntry (st : SyncMap) (k : String) (h : KeysNodup st) :
    KeysNodup (delEntry st k) := by
  unfold KeysNodup
  exact List.Nodup.sublist ((delEntry_sublist st k).map (·.1)) h

theorem KeysNodup_foldl_set (l : List String) (st : SyncMap) (v : String)
    (h : KeysNodup st) :
    KeysNodup (l.foldl (fun st p => setEntry st p v) st) := by
  induction l generalizing st with
  | nil => simpa
  | cons p tail ih => exact ih _ (KeysNodup_setEntry st p v h)

theorem KeysNodup_applyUpload (iso body : String) (st : SyncMap) (batch : List String)
    (h : KeysNodup st) : KeysNodup (applyUpload iso body st batch) := by
  induction batch generalizing st with
  | nil => simpa [applyUpload]
  | cons p tail ih =>
    simp only [applyUpload, List.foldl_cons]
    by_cases hc : strContains body (relpathNorm p) = true
    · rw [if_pos hc]
      exact ih _ (KeysNodup_setEntry st p iso h)
    · rw [if_neg hc]
      exact ih _ h

theorem KeysNodup_applyDelete (body : String) (st : SyncMap) (batch : List String)
    (h : KeysNodup st) : KeysNodup (applyDelete body st batch) := by
  induction batch generalizing st with
  | nil => simpa [applyDelete]
  | cons p tail ih =>
    simp only [applyDelete, List.foldl_cons]
    by_cases hc : strContains body (relpathNorm p) = true
    · rw [if_pos hc]
      exact ih _ (KeysNodup_delEntry st p h)
    · rw [if_neg hc]
      exact ih _ h

theorem KeysNodup_purgeNever (af : List String) (st : SyncMap) (h : KeysNodup st) :
    KeysNodup (purgeNever af st) := by
  unfold KeysNodup purgeNever
  exact List.Nodup.sublist ((List.filter_sublist st).map (·.1)) h

/-! ## Lemmas: batch construction -/

theorem chunksAux_length_le (bsz : Nat) :
    ∀ (fuel : Nat) (l : List α), ∀ c ∈ chunksAux bsz fuel l, c.length ≤ bsz := by
  intro fuel
  induction fuel with
  | zero => simp [chunksAux]
  | succ n ih =>
    intro l c hc
    match l with
    | [] => simp [chunksAux] at hc
    | a :: t =>
      simp only [chunksAux, List.mem_cons] at hc
      rcases hc with rfl | hc
      · rw [List.length_take]
        exact min_le_left _ _
      · exact ih _ c hc

theorem chunks_length_le (bsz : Nat) (l : List α) :
    ∀ c ∈ chunks bsz l, c.length ≤ bsz :=
  chunksAux_length_le bsz l.length l

theorem chunksAux_flatten (bsz : Nat) (hb : 1 ≤ bsz) :
    ∀ (fuel : Nat) (l : List α), l.length ≤ fuel → (chunksAux bsz fuel l).flatten = l := by
  intro fuel
  induction fuel with
  | zero =>
    intro l hl
    rw [List.length_eq_zero.mp (Nat.le_zero.mp hl)]
    simp [chunksAux]
  | succ n ih =>
    intro l hl
    match l with
    | [] => simp [chunksAux]
    | a :: t =>
      simp only [chunksAux, List.flatten_cons]
      have hlen : ((a :: t).drop bsz).length ≤ n := by
        simp only [List.length_drop, List.length_cons]
        simp only [List.length_cons] at hl
        omega
      rw [ih ((a :: t).drop bsz) hlen]
      exact List.take_append_drop bsz (a :: t)

theorem chunks_flatten (bsz : Nat) (hb : 1 ≤ bsz) (l : List α) :
    (chunks bsz l).flatten = l :=
  chunksAux_flatten bsz hb l.length l le_rfl

theorem flatten_take_append (xs : List (List α)) (k : Nat) :
    ∃ r, xs.flatten = (xs.take k).flatten ++ r := by
  refine ⟨(xs.drop k).flatten, ?_⟩
  rw [← List.flatten_append, List.take_append_drop]

/-! ## Lemmas: the batch steps -/

theorem uploadStep_blockResp (iso : String) (s : LState) (b : List String) :
    blockResp (uploadStep iso s b).2.1 = s.rs.headD .exn := by
  rcases s with ⟨st, fails, rs⟩
  cases rs with
  | nil => rfl
  | cons r rest => cases r <;> rfl

theorem uploadStep_fails (iso : String) (s : LState) (b : List String) :
    (uploadStep iso s b).1.fails =
      (match blockResp (uploadStep iso s b).2.1 with
        | .ok _ => 0
        | .err _ => s.fails + 1
        | .exn => s.fails) := by
  rcases s with ⟨st, fails, rs⟩
  cases rs with
  | nil => rfl
  | cons r rest => cases r <;> rfl

theorem uploadStep_rs (iso : String) (s : LState) (b : List String) :
    (uploadStep iso s b).1.rs = s.rs.tail := by
  rcases s with ⟨st, fails, rs⟩
  cases rs with
  | nil => rfl
  | cons r rest => cases r <;> rfl

theorem uploadStep_sleep (iso : String) (s : LState) (b : List String)
    (hf : (uploadStep iso s b).1.fails > 3)
    (hc : blockResp (uploadStep iso s b).2.1 ≠ .exn) :
    Ev.sleep 30 ∈ (uploadStep iso s b).2.1 := by
  rcases s with ⟨st, fails, rs⟩
  cases rs with
  | nil => exact absurd rfl hc
  | cons r rest =>
    cases r with
    | exn => exact absurd rfl hc
    | ok body => simp [uploadStep] at hf
    | err c =>
      simp only [uploadStep] at hf ⊢
      simp only [List.mem_cons]
      right; right
      simp [tailEvents, hf]

theorem deleteStep_blockResp (s : LState) (b : List String) :
    blockResp (deleteStep s b).2.1 = s.rs.headD .exn := by
  rcases s with ⟨st, fails, rs⟩
  cases rs with
  | nil => rfl
  | cons r rest => cases r <;> rfl

theorem deleteStep_fails (s : LState) (b : List String) :
    (deleteStep s b).1.fails =
      (match blockResp (deleteStep s b).2.1 with
        | .ok _ => 0
        | .err _ => s.fails + 1
        | .exn => s.fails) := by
  rcases s with ⟨st, fails, rs⟩
  cases rs with
  | nil => rfl
  | cons r rest => cases r <;> rfl

theorem deleteStep_rs (s : LState) (b : List String) :
    (deleteStep s b).1.rs = s.rs.tail := by
  rcases s with ⟨st, fails, rs⟩
  cases rs with
  | nil => rfl
  | cons r rest => cases r <;> rfl

theorem deleteStep_sleep (s : LState) (b : List String)
    (hf : (deleteStep s b).1.fails > 3)
    (hc : blockResp (deleteStep s b).2.1 ≠ .exn) :
    Ev.sleep 30 ∈ (deleteStep s b).2.1 := by
  rcases s with ⟨st, fails, rs⟩
  cases rs with
  | nil => exact absurd rfl hc
  | cons r rest =>
    cases r with
    | exn => exact absurd rfl hc
    | ok body => simp [deleteStep] at hf
    | err c =>
      simp only [deleteStep] at hf ⊢
      simp only [List.mem_cons]
      right; right
      simp [tailEvents, hf]

/-! ## Lemmas: the batch loop -/

theorem runBatches_cons_some
    (step : LState → List String → LState × List Ev × Option CycleEnd)
    (s : LState) (b : List String) (bs : List (List String))
    (s1 : LState) (evs : List Ev) (e : CycleEnd)
    (h : step s b = (s1, evs, some e)) :
    runBatches step s (b :: bs) = (s1, [(s1, evs)], some e) := by
  simp [runBatches, h]

theorem runBatches_cons_none
    (step : LState → List String → LState × List Ev × Option CycleEnd)
    (s : LState) (b : List String) (bs : List (List String))
    (s1 : LState) (evs : List Ev)
    (h : step s b = (s1, evs, none)) :
    runBatches step s (b :: bs) =
      ((runBatches step s1 bs).1,
        (s1, evs) :: (runBatches step s1 bs).2.1,
        (runBatches step s1 bs).2.2) := by
  simp [runBatches, h]

theorem runBatches_pairs_prop
    (step : LState → List String → LState × List Ev × Option CycleEnd)
    (P : LState → List Ev → Prop)
    (hstep : ∀ s b, P (step s b).1 (step s b).2.1) :
    ∀ (bs : List (List String)) (s : LState),
      ∀ pr ∈ (runBatches step s bs).2.1, P pr.1 pr.2 := by
  intro bs
  induction bs with
  | nil =>
    intro s pr hpr
    simp [runBatches] at hpr
  | cons b rest ih =>
    intro s pr hpr
    rcases hsb : step s b with ⟨s1, evs, e⟩
    have hP : P s1 evs := by have := hstep s b; rwa [hsb] at this
    cases e with
    | some e =>
      rw [runBatches_cons_some step s b rest s1 evs e hsb] at hpr
      simp only [List.mem_singleton] at hpr
      rw [hpr]
      exact hP
    | none =>
      rw [runBatches_cons_none step s b rest s1 evs hsb] at hpr
      simp only [List.mem_cons] at hpr
      rcases hpr with rfl | hpr
      · exact hP
      · exact ih s1 pr hpr

theorem runBatches_final
    (step : LState → List String → LState × List Ev × Option CycleEnd) :
    ∀ (bs : List (List String)) (s : LState),
      (runBatches step s bs).1 = ((runBatches step s bs).2.1.map (·.1)).getLastD s := by
  intro bs
  induction bs with
  | nil => intro s; simp [runBatches]
  | cons b rest ih =>
    intro s
    rcases hsb : step s b with ⟨s1, evs, e⟩
    cases e with
    | some e => rw [runBatches_cons_some step s b rest s1 evs e hsb]; simp
    | none =>
      rw [runBatches_cons_none step s b rest s1 evs hsb]
      simp only [List.map_cons, List.getLastD_cons]
      exact ih s1

theorem runBatches_failsTrace
    (step : LState → List String → LState × List Ev × Option CycleEnd)
    (hstep : ∀ s b, (step s b).1.fails =
      (match blockResp (step s b).2.1 with
        | .ok _ => 0
        | .err _ => s.fails + 1
        | .exn => s.fails)) :
    ∀ (bs : List (List String)) (s : LState),
      (runBatches step s bs).2.1.map (·.1.fails) =
        failsOfTrace s.fails ((runBatches step s bs).2.1.map (·.2)) := by
  intro bs
  induction bs with
  | nil => intro s; simp [runBatches, failsOfTrace]
  | cons b rest ih =>
    intro s
    rcases hsb : step s b with ⟨s1, evs, e⟩
    have hf : s1.fails =
        (match blockResp evs with
          | .ok _ => 0
          | .err _ => s.fails + 1
          | .exn => s.fails) := by
      have := hstep s b; rwa [hsb] at this
    cases e with
    | some e =>
      rw [runBatches_cons_some step s b rest s1 evs e hsb]
      simp [failsOfTrace, hf]
    | none =>
      rw [runBatches_cons_none step s b rest s1 evs hsb]
      simp only [List.map_cons, failsOfTrace]
      rw [← hf, ih s1]

theorem uploadStep_none_sleep (iso : String) (s : LState) (b : List String)
    (s1 : LState) (evs : List Ev)
    (h : uploadStep iso s b = (s1, evs, none)) (hf : s1.fails > 3) :
    Ev.sleep 30 ∈ evs := by
  rcases s with ⟨st, fails, rs⟩
  cases rs with
  | nil => simp [uploadStep] at h
  | cons r rest =>
    cases r with
    | exn => simp [uploadStep] at h
    | ok body =>
      simp only [uploadStep, Prod.mk.injEq] at h
      rw [← h.1] at hf
      simp at hf
    | err c =>
      by_cases h6 : fails + 1 > 6
      · simp [uploadStep, h6] at h
      · simp only [uploadStep, if_neg h6, Prod.mk.injEq] at h
        rw [← h.1] at hf
        simp only at hf
        rw [← h.2.1]
        simp only [List.mem_cons]
        right; right
        simp [tailEvents, hf]

theorem deleteStep_none_sleep (s : LState) (b : List String)
    (s1 : LState) (evs : List Ev)
    (h : deleteStep s b = (s1, evs, none)) (hf : s1.fails > 3) :
    Ev.sleep 30 ∈ evs := by
  rcases s with ⟨st, fails, rs⟩
  cases rs with
  | nil => simp [deleteStep] at h
  | cons r rest =>
    cases r with
    | exn => simp [deleteStep] at h
    | ok body =>
      simp only [deleteStep, Prod.mk.injEq] at h
      rw [← h.1] at hf
      simp at hf
    | err c =>
      by_cases h6 : fails + 1 > 6
      · simp [deleteStep, h6] at h
      · simp only [deleteStep, if_neg h6, Prod.mk.injEq] at h
        rw [← h.1] at hf
        simp only at hf
        rw [← h.2.1]
        simp only [List.mem_cons]
        right; right
        simp [tailEvents, hf]

theorem runBatches_prop_of_none
    (step : LState → List String → LState × List Ev × Option CycleEnd)
    (P : LState → List Ev → Prop)
    (hstep : ∀ s b s1 evs, step s b = (s1, evs, none) → P s1 evs) :
    ∀ (bs : List (List String)) (s : LState),
      (runBatches step s bs).2.2 = none →
      ∀ pr ∈ (runBatches step s bs).2.1, P pr.1 pr.2 := by
  intro bs
  induction bs with
  | nil =>
    intro s _ pr hpr
    simp [runBatches] at hpr
  | cons b rest ih =>
    intro s hnone pr hpr
    rcases hsb : step s b with ⟨s1, evs, e⟩
    cases e with
    | some e =>
      rw [runBatches_cons_some step s b rest s1 evs e hsb] at hnone
      simp at hnone
    | none =>
      rw [runBatches_cons_none step s b rest s1 evs hsb] at hnone hpr
      simp only [List.mem_cons] at hpr
      rcases hpr with rfl | hpr
      · exact hstep s b s1 evs hsb
      · exact ih s1 hnone pr hpr

theorem runBatches_dropLast_prop
    (step : LState → List String → LState × List Ev × Option CycleEnd)
    (P : LState → List Ev → Prop)
    (hstep : ∀ s b s1 evs, step s b = (s1, evs, none) → P s1 evs) :
    ∀ (bs : List (List String)) (s : LState),
      ∀ pr ∈ (runBatches step s bs).2.1.dropLast, P pr.1 pr.2 := by
  intro bs
  induction bs with
  | nil =>
    intro s pr hpr
    simp [runBatches] at hpr
  | cons b rest ih =>
    intro s pr hpr
    rcases hsb : step s b with ⟨s1, evs, e⟩
    cases e with
    | some e =>
      rw [runBatches_cons_some step s b rest s1 evs e hsb] at hpr
      simp at hpr
    | none =>
      rw [runBatches_cons_none step s b rest s1 evs hsb] at hpr
      cases hps : (runBatches step s1 rest).2.1 with
      | nil => rw [hps] at hpr; simp at hpr
      | cons q qs =>
        rw [hps] at hpr
        rw [show ((s1, evs) :: q :: qs).dropLast = (s1, evs) :: (q :: qs).dropLast from rfl]
          at hpr
        simp only [List.mem_cons] at hpr
        rcases hpr with rfl | hpr
        · exact hstep s b s1 evs hsb
        · have := ih s1 pr
          rw [hps] at this
          exact this hpr

theorem failsOfTrace_append (f0 : Nat) (xs ys : List (List Ev)) :
    failsOfTrace f0 (xs ++ ys) =
      failsOfTrace f0 xs ++ failsOfTrace ((failsOfTrace f0 xs).getLastD f0) ys := by
  induction xs generalizing f0 with
  | nil => simp [failsOfTrace]
  | cons evs xs ih =>
    simp only [List.cons_append, failsOfTrace, List.getLastD_cons]
    exact congrArg (List.cons _) (ih _)

theorem getLastD_map {α β : Type} (g : α → β) (l : List α) (d : α) :
    (l.map g).getLastD (g d) = g (l.getLastD d) := by
  induction l generalizing d with
  | nil => simp
  | cons a l ih => simp only [List.map_cons, List.getLastD_cons]; exact ih a

/-! ## Lemmas: which batches go on the wire -/

theorem tailEvents_filterMap (n : Nat) (f : Ev → Option (List String))
    (h1 : f (Ev.sleep 30) = none) (h2 : f (Ev.exitCall 0) = none) :
    (tailEvents n).filterMap f = [] := by
  unfold tailEvents
  rw [List.filterMap_append]
  split <;> split <;> simp [h1, h2]

theorem uploadStep_filterMap_sendU (iso : String) (s : LState) (b : List String) :
    ((uploadStep iso s b).2.1).filterMap sendUBatch? = [b] := by
  rcases s with ⟨st, fails, rs⟩
  cases rs with
  | nil => rfl
  | cons r rest =>
    cases r with
    | exn => rfl
    | ok body => rfl
    | err c =>
      simp only [uploadStep, List.filterMap_cons, sendUBatch?]
      rw [tailEvents_filterMap _ sendUBatch? rfl rfl]

theorem uploadStep_filterMap_sendD (iso : String) (s : LState) (b : List String) :
    ((uploadStep iso s b).2.1).filterMap sendDBatch? = [] := by
  rcases s with ⟨st, fails, rs⟩
  cases rs with
  | nil => rfl
  | cons r rest =>
    cases r with
    | exn => rfl
    | ok body => rfl
    | err c =>
      simp only [uploadStep, List.filterMap_cons, sendDBatch?]
      rw [tailEvents_filterMap _ sendDBatch? rfl rfl]

theorem deleteStep_filterMap_sendD (s : LState) (b : List String) :
    ((deleteStep s b).2.1).filterMap sendDBatch? = [b] := by
  rcases s with ⟨st, fails, rs⟩
  cases rs with
  | nil => rfl
  | cons r rest =>
    cases r with
    | exn => rfl
    | ok body => rfl
    | err c =>
      simp only [deleteStep, List.filterMap_cons, sendDBatch?]
      rw [tailEvents_filterMap _ sendDBatch? rfl rfl]

theorem deleteStep_filterMap_sendU (s : LState) (b : List String) :
    ((deleteStep s b).2.1).filterMap sendUBatch? = [] := by
  rcases s with ⟨st, fails, rs⟩
  cases rs with
  | nil => rfl
  | cons r rest =>
    cases r with
    | exn => rfl
    | ok body => rfl
    | err c =>
      simp only [deleteStep, List.filterMap_cons, sendUBatch?]
      rw [tailEvents_filterMap _ sendUBatch? rfl rfl]

theorem runBatches_sends
    (step : LState → List String → LState × List Ev × Option CycleEnd)
    (f : Ev → Option (List String))
    (hstep : ∀ s b, ((step s b).2.1).filterMap f = [b]) :
    ∀ (bs : List (List String)) (s : LState),
      (((runBatches step s bs).2.1.map (·.2)).flatten).filterMap f =
        bs.take (runBatches step s bs).2.1.length := by
  intro bs
  induction bs with
  | nil => intro s; simp [runBatches]
  | cons b rest ih =>
    intro s
    rcases hsb : step s b with ⟨s1, evs, e⟩
    have hf : evs.filterMap f = [b] := by
      have := hstep s b; rwa [hsb] at this
    cases e with
    | some e =>
      rw [runBatches_cons_some step s b rest s1 evs e hsb]
      simp [hf]
    | none =>
      rw [runBatches_cons_none step s b rest s1 evs hsb]
      simp only [List.map_cons, List.flatten_cons, List.filterMap_append, hf,
        List.length_cons, List.take_succ_cons]
      rw [ih s1]
      rfl

theorem runBatches_sends_none
    (step : LState → List String → LState × List Ev × Option CycleEnd)
    (f : Ev → Option (List String))
    (hstep : ∀ s b, ((step s b).2.1).filterMap f = []) :
    ∀ (bs : List (List String)) (s : LState),
      (((runBatches step s bs).2.1.map (·.2)).flatten).filterMap f = [] := by
  intro bs
  induction bs with
  | nil => intro s; simp [runBatches]
  | cons b rest ih =>
    intro s
    rcases hsb : step s b with ⟨s1, evs, e⟩
    have hf : evs.filterMap f = [] := by
      have := hstep s b; rwa [hsb] at this
    cases e with
    | some e =>
      rw [runBatches_cons_some step s b rest s1 evs e hsb]
      simp [hf]
    | none =>
      rw [runBatches_cons_none step s b rest s1 evs hsb]
      simp only [List.map_cons, List.flatten_cons, List.filterMap_append, hf,
        List.nil_append]
      exact ih s1

theorem mem_chunksAux_subset (bsz : Nat) :
    ∀ (fuel : Nat) (l : List α), ∀ c ∈ chunksAux bsz fuel l, ∀ x ∈ c, x ∈ l := by
  intro fuel
  induction fuel with
  | zero => simp [chunksAux]
  | succ n ih =>
    intro l c hc x hx
    match l with
    | [] => simp [chunksAux] at hc
    | a :: t =>
      simp only [chunksAux, List.mem_cons] at hc
      rcases hc with rfl | hc
      · exact List.take_subset _ _ hx
      · exact List.drop_subset _ _ (ih _ c hc x hx)

theorem mem_chunks_subset (bsz : Nat) (l : List α) (c : List α) (hc : c ∈ chunks bsz l) :
    ∀ x ∈ c, x ∈ l :=
  mem_chunksAux_subset bsz l.length l c hc

theorem chunks_ne_nil (bsz : Nat) (a : α) (l : List α) :
    chunks bsz (a :: l) ≠ [] := by
  simp [chunks, chunksAux]

theorem mem_tailEvents (n : Nat) (ev : Ev) (h : ev ∈ tailEvents n) :
    ev = Ev.sleep 30 ∨ ev = Ev.exitCall 0 := by
  unfold tailEvents at h
  rw [List.mem_append] at h
  rcases h with h | h
  · left
    by_cases h3 : n > 3
    · rw [if_pos h3] at h; simpa using h
    · rw [if_neg h3] at h; simp at h
  · right
    by_cases h6 : n > 6
    · rw [if_pos h6] at h; simpa using h
    · rw [if_neg h6] at h; simp at h

theorem uploadStep_events (iso : String) (s : LState) (bb : List String) :
    ∀ ev ∈ (uploadStep iso s bb).2.1,
      ev = Ev.sendU bb (wireNames bb) (s.rs.headD .exn) ∨
      (∃ stx, ev = Ev.persist stx) ∨ ev = Ev.sleep 30 ∨ ev = Ev.exitCall 0 := by
  rcases s with ⟨st, fails, rs⟩
  cases rs with
  | nil => intro ev hev; simp [uploadStep] at hev; simp [hev]
  | cons r rest =>
    cases r with
    | exn => intro ev hev; simp [uploadStep] at hev; simp [hev]
    | ok body =>
      intro ev hev
      simp only [uploadStep, List.mem_cons] at hev
      rcases hev with rfl | hev
      · left; rfl
      · simp at hev
        right; left; exact ⟨_, hev⟩
    | err c =>
      intro ev hev
      simp only [uploadStep, List.mem_cons] at hev
      rcases hev with rfl | rfl | hev
      · left; rfl
      · right; left; exact ⟨_, rfl⟩
      · rcases mem_tailEvents _ ev hev with h | h
        · right; right; left; exact h
        · right; right; right; exact h

theorem deleteStep_events (s : LState) (bb : List String) :
    ∀ ev ∈ (deleteStep s bb).2.1,
      ev = Ev.sendD bb (wireNames bb) (s.rs.headD .exn) ∨
      (∃ stx, ev = Ev.persist stx) ∨ ev = Ev.sleep 30 ∨ ev = Ev.exitCall 0 := by
  rcases s with ⟨st, fails, rs⟩
  cases rs with
  | nil => intro ev hev; simp [deleteStep] at hev; simp [hev]
  | cons r rest =>
    cases r with
    | exn => intro ev hev; simp [deleteStep] at hev; simp [hev]
    | ok body =>
      intro ev hev
      simp only [deleteStep, List.mem_cons] at hev
      rcases hev with rfl | hev
      · left; rfl
      · simp at hev
        right; left; exact ⟨_, hev⟩
    | err c =>
      intro ev hev
      simp only [deleteStep, List.mem_cons] at hev
      rcases hev with rfl | rfl | hev
      · left; rfl
      · right; left; exact ⟨_, rfl⟩
      · rcases mem_tailEvents _ ev hev with h | h
        · right; right; left; exact h
        · right; right; right; exact h

/-! ## Lemmas: the shapes one cycle can take -/

theorem sync_shape_detectFail (tc : TimeCodec) (pms : Params) (st0 : SyncMap)
    (env : CycleEnv) (h : detectUploads tc st0 env.catalog = none) :
    sync tc pms st0 env = ⟨[], ⟨st0, 0, env.responses⟩, .pyExn⟩ := by
  simp [sync, h]

theorem sync_shape_abort (tc : TimeCodec) (pms : Params) (st0 : SyncMap) (env : CycleEnv)
    (cands : List String) (s1 : LState) (prs : List (LState × List Ev)) (e : CycleEnd)
    (hdet : detectUploads tc st0 env.catalog = some cands)
    (hup : runBatches (uploadStep (tc.enc env.syncTime)) ⟨st0, 0, env.responses⟩
      (chunks pms.batchSize (cands.take pms.maxUploads)) = (s1, prs, some e)) :
    sync tc pms st0 env = ⟨prs, s1, e⟩ := by
  simp [sync, hdet, hup]

theorem sync_shape_manifest (tc : TimeCodec) (pms : Params) (st0 : SyncMap) (env : CycleEnv)
    (cands : List String) (s1 : LState) (prs : List (LState × List Ev))
    (hdet : detectUploads tc st0 env.catalog = some cands)
    (hup : runBatches (uploadStep (tc.enc env.syncTime)) ⟨st0, 0, env.responses⟩
      (chunks pms.batchSize (cands.take pms.maxUploads)) = (s1, prs, none))
    (hm : pms.manifest = true) :
    sync tc pms st0 env = ⟨prs, s1, .normal⟩ := by
  simp [sync, hdet, hup, hm]

theorem sync_shape_full (tc : TimeCodec) (pms : Params) (st0 : SyncMap) (env : CycleEnv)
    (cands : List String) (s1 : LState) (prs : List (LState × List Ev))
    (hdet : detectUploads tc st0 env.catalog = some cands)
    (hup : runBatches (uploadStep (tc.enc env.syncTime)) ⟨st0, 0, env.responses⟩
      (chunks pms.batchSize (cands.take pms.maxUploads)) = (s1, prs, none))
    (hm : pms.manifest = false) :
    sync tc pms st0 env =
      ⟨prs ++ (runBatches deleteStep
          ⟨purgeNever (env.catalog.map (·.1)) s1.st, s1.fails, s1.rs⟩
          (chunks pms.batchSize (deleteCandidates (env.catalog.map (·.1)) s1.st))).2.1,
        (runBatches deleteStep
          ⟨purgeNever (env.catalog.map (·.1)) s1.st, s1.fails, s1.rs⟩
          (chunks pms.batchSize (deleteCandidates (env.catalog.map (·.1)) s1.st))).1,
        match (runBatches deleteStep
          ⟨purgeNever (env.catalog.map (·.1)) s1.st, s1.fails, s1.rs⟩
          (chunks pms.batchSize (deleteCandidates (env.catalog.map (·.1)) s1.st))).2.2 with
        | some e => e
        | none => .normal⟩ := by
  simp [sync, hdet, hup, hm]

theorem mem_blocks_of_mem_trace (out : CycleOut) (ev : Ev) (h : ev ∈ cycleTrace out) :
    ∃ pr ∈ out.blocks, ev ∈ pr.2 := by
  unfold cycleTrace at h
  rw [List.mem_flatten] at h
  obtain ⟨l, hl, hev⟩ := h
  rw [List.mem_map] at hl
  obtain ⟨pr, hpr, rfl⟩ := hl
  exact ⟨pr, hpr, hev⟩

/-- Any per-event property established for both step functions holds
for every event a cycle emits. -/
theorem sync_events_prop (tc : TimeCodec) (pms : Params) (st0 : SyncMap) (env : CycleEnv)
    (P : Ev → Prop)
    (hu : ∀ s b, ∀ ev ∈ (uploadStep (tc.enc env.syncTime) s b).2.1, P ev)
    (hd : ∀ s b, ∀ ev ∈ (deleteStep s b).2.1, P ev) :
    ∀ ev ∈ cycleTrace (sync tc pms st0 env), P ev := by
  have hu2 : ∀ prs0 : List (LState × List Ev),
      (∀ pr ∈ prs0, ∀ ev ∈ pr.2, P ev) → ∀ ev ∈ (prs0.map (·.2)).flatten, P ev := by
    intro prs0 hall ev hev
    rw [List.mem_flatten] at hev
    obtain ⟨l, hl, hev⟩ := hev
    rw [List.mem_map] at hl
    obtain ⟨pr, hpr, rfl⟩ := hl
    exact hall pr hpr ev hev
  cases hdet : detectUploads tc st0 env.catalog with
  | none =>
    rw [sync_shape_detectFail tc pms st0 env hdet]
    intro ev hev
    simp [cycleTrace] at hev
  | some cands =>
    rcases hup : runBatches (uploadStep (tc.enc env.syncTime)) ⟨st0, 0, env.responses⟩
      (chunks pms.batchSize (cands.take pms.maxUploads)) with ⟨s1, prs, e⟩
    have hPrs : ∀ pr ∈ prs, ∀ ev ∈ pr.2, P ev := by
      have h := runBatches_pairs_prop (uploadStep (tc.enc env.syncTime))
        (fun _ evs => ∀ ev ∈ evs, P ev) (fun s b => hu s b)
        (chunks pms.batchSize (cands.take pms.maxUploads)) ⟨st0, 0, env.responses⟩
      rw [hup] at h
      exact h
    cases e with
    | some e =>
      rw [sync_shape_abort tc pms st0 env cands s1 prs e hdet hup]
      exact hu2 prs hPrs
    | none =>
      cases hm : pms.manifest with
      | true =>
        rw [sync_shape_manifest tc pms st0 env cands s1 prs hdet hup hm]
        exact hu2 prs hPrs
      | false =>
        rw [sync_shape_full tc pms st0 env cands s1 prs hdet hup hm]
        have hDprs : ∀ pr ∈ (runBatches deleteStep
            ⟨purgeNever (env.catalog.map (·.1)) s1.st, s1.fails, s1.rs⟩
            (chunks pms.batchSize (deleteCandidates (env.catalog.map (·.1)) s1.st))).2.1,
            ∀ ev ∈ pr.2, P ev :=
          runBatches_pairs_prop deleteStep (fun _ evs => ∀ ev ∈ evs, P ev)
            (fun s b => hd s b)
            (chunks pms.batchSize (deleteCandidates (env.catalog.map (·.1)) s1.st))
            ⟨purgeNever (env.catalog.map (·.1)) s1.st, s1.fails, s1.rs⟩
        intro ev hev
        simp only [cycleTrace, List.map_append, List.flatten_append, List.mem_append] at hev
        rcases hev with hev | hev
        · exact hu2 prs hPrs ev hev
        · exact hu2 _ hDprs ev hev

/-- Any per-event property established for the upload step holds for
every event of a manifest-mode cycle (which has no deletion phase). -/
theorem sync_manifest_events_prop (tc : TimeCodec) (pms : Params) (st0 : SyncMap)
    (env : CycleEnv) (hm : pms.manifest = true) (P : Ev → Prop)
    (hu : ∀ s b, ∀ ev ∈ (uploadStep (tc.enc env.syncTime) s b).2.1, P ev) :
    ∀ ev ∈ cycleTrace (sync tc pms st0 env), P ev := by
  have hu2 : ∀ prs0 : List (LState × List Ev),
      (∀ pr ∈ prs0, ∀ ev ∈ pr.2, P ev) → ∀ ev ∈ (prs0.map (·.2)).flatten, P ev := by
    intro prs0 hall ev hev
    rw [List.mem_flatten] at hev
    obtain ⟨l, hl, hev⟩ := hev
    rw [List.mem_map] at hl
    obtain ⟨pr, hpr, rfl⟩ := hl
    exact hall pr hpr ev hev
  cases hdet : detectUploads tc st0 env.catalog with
  | none =>
    rw [sync_shape_detectFail tc pms st0 env hdet]
    intro ev hev
    simp [cycleTrace] at hev
  | some cands =>
    rcases hup : runBatches (uploadStep (tc.enc env.syncTime)) ⟨st0, 0, env.responses⟩
      (chunks pms.batchSize (cands.take pms.maxUploads)) with ⟨s1, prs, e⟩
    have hPrs : ∀ pr ∈ prs, ∀ ev ∈ pr.2, P ev := by
      have h := runBatches_pairs_prop (uploadStep (tc.enc env.syncTime))
        (fun _ evs => ∀ ev ∈ evs, P ev) (fun s b => hu s b)
        (chunks pms.batchSize (cands.take pms.maxUploads)) ⟨st0, 0, env.responses⟩
      rw [hup] at h
      exact h
    cases e with
    | some e =>
      rw [sync_shape_abort tc pms st0 env cands s1 prs e hdet hup]
      exact hu2 prs hPrs
    | none =>
      rw [sync_shape_manifest tc pms st0 env cands s1 prs hdet hup hm]
      exact hu2 prs hPrs

/-! ## Lemmas: preservation of untouched entries -/

theorem lookupV_of_mem_nodup (st : SyncMap) (p v : String) (hnd : KeysNodup st)
    (h : (p, v) ∈ st) : lookupV st p = some v := by
  induction st with
  | nil => simp at h
  | cons kv rest ih =>
    rcases List.mem_cons.mp h with rfl | h2
    · simp [lookupV]
    · have hk : kv.1 ≠ p := by
        intro he
        have hm : kv.1 ∈ rest.map (·.1) := by
          rw [he]
          exact List.mem_map.mpr ⟨(p, v), h2, rfl⟩
        exact (List.nodup_cons.mp hnd).1 hm
      simp only [lookupV, if_neg hk]
      exact ih (List.nodup_cons.mp hnd).2 h2

theorem detectUploads_subset (tc : TimeCodec) (st : SyncMap) :
    ∀ (cat : List (String × Nat)) (cands : List String),
      detectUploads tc st cat = some cands → ∀ p ∈ cands, p ∈ cat.map (·.1) := by
  intro cat
  induction cat with
  | nil =>
    intro cands h p hp
    simp only [detectUploads] at h
    obtain rfl : ([] : List String) = cands := Option.some.inj h
    simp at hp
  | cons pm rest ih =>
    intro cands h p hp
    simp only [detectUploads, Option.bind_eq_bind, Option.bind] at h
    rcases hb : uploadCandidate? tc st pm.1 pm.2 with _ | b
    · rw [hb] at h; simp at h
    · rw [hb] at h
      simp only at h
      rcases ht : detectUploads tc st rest with _ | tail
      · rw [ht] at h; simp at h
      · rw [ht] at h
        obtain rfl : (if b = true then pm.1 :: tail else tail) = cands := Option.some.inj h
        by_cases hbb : b = true
        · rw [if_pos hbb] at hp
          rcases List.mem_cons.mp hp with rfl | hp2
          · simp
          · exact List.mem_cons_of_mem _ (ih tail ht p hp2)
        · rw [if_neg hbb] at hp
          exact List.mem_cons_of_mem _ (ih tail ht p hp)

theorem mem_deleteCandidates_elim (af : List String) (st : SyncMap) (q : String)
    (h : q ∈ deleteCandidates af st) :
    ∃ v, (q, v) ∈ st ∧ v ≠ "never" ∧ af.contains q = false := by
  simp only [deleteCandidates, List.mem_map] at h
  obtain ⟨kv, hm, rfl⟩ := h
  rw [List.mem_filter] at hm
  refine ⟨kv.2, hm.1, ?_, ?_⟩
  · have := hm.2
    simp only [Bool.and_eq_true, Bool.not_eq_true'] at this
    simpa using this.2
  · have := hm.2
    simp only [Bool.and_eq_true, Bool.not_eq_true'] at this
    exact this.1

theorem uploadStep_lookup_not_mem (iso : String) (s : LState) (b : List String)
    (p : String) (hp : p ∉ b) :
    lookupV ((uploadStep iso s b).1).st p = lookupV s.st p := by
  rcases s with ⟨st, fails, rs⟩
  cases rs with
  | nil => rfl
  | cons r rest =>
    cases r with
    | exn => rfl
    | ok body =>
      show lookupV (applyUpload iso body st b) p = _
      rw [lookupV_applyUpload]
      simp [hp]
    | err c => rfl

theorem uploadLoop_lookup_not_mem (iso : String) (p : String) :
    ∀ (bs : List (List String)) (s : LState), (∀ b ∈ bs, p ∉ b) →
      lookupV ((runBatches (uploadStep iso) s bs).1).st p = lookupV s.st p := by
  intro bs
  induction bs with
  | nil => intro s _; simp [runBatches]
  | cons b rest ih =>
    intro s hb
    rcases hsb : uploadStep iso s b with ⟨s1, evs, e⟩
    have h1 : lookupV s1.st p = lookupV s.st p := by
      have := uploadStep_lookup_not_mem iso s b p (hb b (by simp))
      rwa [hsb] at this
    cases e with
    | some e =>
      rw [runBatches_cons_some _ s b rest s1 evs e hsb]
      exact h1
    | none =>
      rw [runBatches_cons_none _ s b rest s1 evs hsb]
      rw [ih s1 (fun bb hbb => hb bb (List.mem_cons_of_mem _ hbb))]
      exact h1

theorem runBatches_state_inv
    (step : LState → List String → LState × List Ev × Option CycleEnd)
    (Inv : SyncMap → Prop)
    (hstep : ∀ s b, Inv s.st → Inv (step s b).1.st) :
    ∀ (bs : List (List String)) (s : LState), Inv s.st →
      Inv (runBatches step s bs).1.st := by
  intro bs
  induction bs with
  | nil => intro s h; simpa [runBatches]
  | cons b rest ih =>
    intro s h
    rcases hsb : step s b with ⟨s1, evs, e⟩
    have h1 : Inv s1.st := by
      have := hstep s b h
      rwa [hsb] at this
    cases e with
    | some e =>
      rw [runBatches_cons_some _ s b rest s1 evs e hsb]
      exact h1
    | none =>
      rw [runBatches_cons_none _ s b rest s1 evs hsb]
      exact ih s1 h1

theorem uploadStep_keysNodup (iso : String) (s : LState) (b : List String)
    (h : KeysNodup s.st) : KeysNodup ((uploadStep iso s b).1).st := by
  rcases s with ⟨st, fails, rs⟩
  cases rs with
  | nil => exact h
  | cons r rest =>
    cases r with
    | exn => exact h
    | ok body => exact KeysNodup_applyUpload iso body st b h
    | err c => exact h

/-! ## Lemmas: tracking one entry through the deletion loop -/

theorem deleteStep_lookup_none (s : LState) (b : List String) (p : String)
    (h : lookupV s.st p = none) : lookupV ((deleteStep s b).1).st p = none := by
  rcases s with ⟨st, fails, rs⟩
  cases rs with
  | nil => exact h
  | cons r rest =>
    cases r with
    | exn => exact h
    | ok body =>
      show lookupV (applyDelete body st b) p = none
      rw [lookupV_applyDelete]
      split <;> simp [h]
    | err c => exact h

theorem deleteLoop_lookup_none (p : String) :
    ∀ (bs : List (List String)) (s : LState), lookupV s.st p = none →
      lookupV ((runBatches deleteStep s bs).1).st p = none := by
  intro bs
  induction bs with
  | nil => intro s h; simpa [runBatches]
  | cons b rest ih =>
    intro s h
    rcases hsb : deleteStep s b with ⟨s1, evs, e⟩
    have h1 : lookupV s1.st p = none := by
      have := deleteStep_lookup_none s b p h
      rwa [hsb] at this
    cases e with
    | some e =>
      rw [runBatches_cons_some _ s b rest s1 evs e hsb]
      exact h1
    | none =>
      rw [runBatches_cons_none _ s b rest s1 evs hsb]
      exact ih s1 h1

theorem deleteLoop_track (p v : String) :
    ∀ (bs : List (List String)) (s : LState), lookupV s.st p = some v →
      (lookupV ((runBatches deleteStep s bs).1).st p = some v ∧
        ¬ ∃ ev ∈ ((runBatches deleteStep s bs).2.1.map (·.2)).flatten, confirmsDelete p ev) ∨
      (lookupV ((runBatches deleteStep s bs).1).st p = none ∧
        ∃ ev ∈ ((runBatches deleteStep s bs).2.1.map (·.2)).flatten, confirmsDelete p ev) := by
  intro bs
  induction bs with
  | nil =>
    intro s h
    left
    refine ⟨by simpa [runBatches], ?_⟩
    simp [runBatches]
  | cons b rest ih =>
    intro s h
    rcases s with ⟨st, fails, rs⟩
    cases rs with
    | nil =>
      rw [runBatches_cons_some _ _ b rest _ _ _ (rfl :
        deleteStep ⟨st, fails, []⟩ b = (⟨st, fails, []⟩, [Ev.sendD b (wireNames b) .exn],
          some .pyExn))]
      left
      refine ⟨h, ?_⟩
      rintro ⟨ev, hev, hc⟩
      simp only [List.map_cons, List.map_nil, List.flatten_cons, List.flatten_nil,
        List.append_nil, List.mem_singleton] at hev
      obtain ⟨b2, parts2, body2, he, _, _⟩ := hc
      rw [hev] at he
      simp at he
    | cons r rest2 =>
      cases r with
      | exn =>
        rw [runBatches_cons_some _ _ b rest _ _ _ (rfl :
          deleteStep ⟨st, fails, BatchResult.exn :: rest2⟩ b =
            (⟨st, fails, rest2⟩, [Ev.sendD b (wireNames b) .exn], some .pyExn))]
        left
        refine ⟨h, ?_⟩
        rintro ⟨ev, hev, hc⟩
        simp only [List.map_cons, List.map_nil, List.flatten_cons, List.flatten_nil,
          List.append_nil, List.mem_singleton] at hev
        obtain ⟨b2, parts2, body2, he, _, _⟩ := hc
        rw [hev] at he
        simp at he
      | err c =>
        by_cases h6 : fails + 1 > 6
        · rw [runBatches_cons_some _ _ b rest _ _ _ (by
            simp [deleteStep, h6] :
            deleteStep ⟨st, fails, BatchResult.err c :: rest2⟩ b =
              (⟨st, fails + 1, rest2⟩,
                Ev.sendD b (wireNames b) (.err c) :: Ev.persist st :: tailEvents (fails + 1),
                some .sysExit))]
          left
          refine ⟨h, ?_⟩
          rintro ⟨ev, hev, hc⟩
          simp only [List.map_cons, List.map_nil, List.flatten_cons, List.flatten_nil,
            List.append_nil, List.mem_cons] at hev
          obtain ⟨b2, parts2, body2, he, _, _⟩ := hc
          rcases hev with rfl | rfl | hev
          · simp at he
          · simp at he
          · rcases mem_tailEvents _ ev hev with rfl | rfl <;> simp at he
        · rw [runBatches_cons_none _ _ b rest _ _ (by
            simp [deleteStep, h6] :
            deleteStep ⟨st, fails, BatchResult.err c :: rest2⟩ b =
              (⟨st, fails + 1, rest2⟩,
                Ev.sendD b (wireNames b) (.err c) :: Ev.persist st :: tailEvents (fails + 1),
                none))]
          have hblock : ¬ ∃ ev ∈ (Ev.sendD b (wireNames b) (BatchResult.err c) ::
              Ev.persist st :: tailEvents (fails + 1)), confirmsDelete p ev := by
            rintro ⟨ev, hev, hc⟩
            obtain ⟨b2, parts2, body2, he, _, _⟩ := hc
            rcases List.mem_cons.mp hev with rfl | hev
            · simp at he
            · rcases List.mem_cons.mp hev with rfl | hev
              · simp at he
              · rcases mem_tailEvents _ ev hev with rfl | rfl <;> simp at he
          rcases ih ⟨st, fails + 1, rest2⟩ h with ⟨h1, h2⟩ | ⟨h1, h2⟩
          · left
            refine ⟨h1, ?_⟩
            rintro ⟨ev, hev, hc⟩
            simp only [List.map_cons, List.flatten_cons, List.mem_append] at hev
            rcases hev with hev | hev
            · exact hblock ⟨ev, hev, hc⟩
            · exact h2 ⟨ev, hev, hc⟩
          · right
            refine ⟨h1, ?_⟩
            obtain ⟨ev, hev, hc⟩ := h2
            refine ⟨ev, ?_, hc⟩
            simp only [List.map_cons, List.flatten_cons, List.mem_append]
            exact Or.inr hev
      | ok body =>
        rw [runBatches_cons_none _ _ b rest _ _ (rfl :
          deleteStep ⟨st, fails, BatchResult.ok body :: rest2⟩ b =
            (⟨applyDelete body st b, 0, rest2⟩,
              [Ev.sendD b (wireNames b) (.ok body), Ev.persist (applyDelete body st b)],
              none))]
        by_cases hcp : p ∈ b ∧ strContains body (relpathNorm p) = true
        · right
          have hnone : lookupV (applyDelete body st b) p = none := by
            rw [lookupV_applyDelete]
            simp [hcp]
          refine ⟨?_, ?_⟩
          · exact deleteLoop_lookup_none p rest ⟨applyDelete body st b, 0, rest2⟩ hnone
          · refine ⟨Ev.sendD b (wireNames b) (.ok body), ?_, ?_⟩
            · simp
            · exact ⟨b, wireNames b, body, rfl, hcp.1, hcp.2⟩
        · have hkeep : lookupV (applyDelete body st b) p = some v := by
            rw [lookupV_applyDelete]
            simp only [hcp, if_neg, if_false]
            exact h
          have hblock : ¬ ∃ ev ∈ [Ev.sendD b (wireNames b) (BatchResult.ok body),
              Ev.persist (applyDelete body st b)], confirmsDelete p ev := by
            rintro ⟨ev, hev, hc⟩
            obtain ⟨b2, parts2, body2, he, hm2, hs2⟩ := hc
            rcases List.mem_cons.mp hev with rfl | hev
            · simp only [Ev.sendD.injEq, BatchResult.ok.injEq] at he
              exact hcp ⟨he.1 ▸ hm2, he.2.2 ▸ hs2⟩
            · rcases List.mem_cons.mp hev with rfl | hev
              · simp at he
              · simp at hev
          rcases ih ⟨applyDelete body st b, 0, rest2⟩ hkeep with ⟨h1, h2⟩ | ⟨h1, h2⟩
          · left
            refine ⟨h1, ?_⟩
            rintro ⟨ev, hev, hc⟩
            simp only [List.map_cons, List.flatten_cons, List.mem_append] at hev
            rcases hev with hev | hev
            · exact hblock ⟨ev, hev, hc⟩
            · exact h2 ⟨ev, hev, hc⟩
          · right
            refine ⟨h1, ?_⟩
            obtain ⟨ev, hev, hc⟩ := h2
            refine ⟨ev, ?_, hc⟩
            simp only [List.map_cons, List.flatten_cons, List.mem_append]
            exact Or.inr hev

/-! ## Lemmas: what the artifact holds on disk -/

theorem lastPersistFrom (ys : List Ev) :
    ∀ (a : Option SyncMap),
      ys.foldl (fun acc e => match e with | .persist s => some s | _ => acc) a =
        (lastPersist? ys).or a := by
  induction ys with
  | nil => intro a; simp [lastPersist?]
  | cons e ys ih =>
    intro a
    rw [List.foldl_cons, ih]
    have h2 : lastPersist? (e :: ys) = (lastPersist? ys).or
        (match e with | Ev.persist s => some s | _ => none) := by
      show ys.foldl _ _ = _
      rw [ih]
    rw [h2]
    cases hys : lastPersist? ys with
    | some s => rfl
    | none => cases e <;> rfl

theorem lastPersist?_append (xs ys : List Ev) :
    lastPersist? (xs ++ ys) = (lastPersist? ys).or (lastPersist? xs) := by
  show (xs ++ ys).foldl _ none = _
  rw [List.foldl_append]
  exact lastPersistFrom ys _

theorem tailEvents_lastPersist (n : Nat) : lastPersist? (tailEvents n) = none := by
  unfold tailEvents lastPersist?
  split <;> split <;> rfl

theorem uploadStep_lastPersist (iso : String) (s : LState) (b : List String)
    (s1 : LState) (evs : List Ev) (h : uploadStep iso s b = (s1, evs, none)) :
    lastPersist? evs = some s1.st := by
  rcases s with ⟨st, fails, rs⟩
  cases rs with
  | nil => simp [uploadStep] at h
  | cons r rest =>
    cases r with
    | exn => simp [uploadStep] at h
    | ok body =>
      simp only [uploadStep, Prod.mk.injEq] at h
      rw [← h.1, ← h.2.1]
      rfl
    | err c =>
      by_cases h6 : fails + 1 > 6
      · simp [uploadStep, h6] at h
      · simp only [uploadStep, if_neg h6, Prod.mk.injEq] at h
        rw [← h.1, ← h.2.1]
        show (tailEvents (fails + 1)).foldl _ (some st) = _
        rw [lastPersistFrom, tailEvents_lastPersist]
        rfl

theorem deleteStep_lastPersist (s : LState) (b : List String)
    (s1 : LState) (evs : List Ev) (h : deleteStep s b = (s1, evs, none)) :
    lastPersist? evs = some s1.st := by
  rcases s with ⟨st, fails, rs⟩
  cases rs with
  | nil => simp [deleteStep] at h
  | cons r rest =>
    cases r with
    | exn => simp [deleteStep] at h
    | ok body =>
      simp only [deleteStep, Prod.mk.injEq] at h
      rw [← h.1, ← h.2.1]
      rfl
    | err c =>
      by_cases h6 : fails + 1 > 6
      · simp [deleteStep, h6] at h
      · simp only [deleteStep, if_neg h6, Prod.mk.injEq] at h
        rw [← h.1, ← h.2.1]
        show (tailEvents (fails + 1)).foldl _ (some st) = _
        rw [lastPersistFrom, tailEvents_lastPersist]
        rfl

theorem runBatches_lastPersist
    (step : LState → List String → LState × List Ev × Option CycleEnd)
    (hstep : ∀ s b s1 evs, step s b = (s1, evs, none) → lastPersist? evs = some s1.st) :
    ∀ (bs : List (List String)) (s : LState),
      (runBatches step s bs).2.2 = none → bs ≠ [] →
      lastPersist? (((runBatches step s bs).2.1.map (·.2)).flatten) =
        some ((runBatches step s bs).1).st := by
  intro bs
  induction bs with
  | nil => intro s _ hne; exact absurd rfl hne
  | cons b rest ih =>
    intro s hnone _
    rcases hsb : step s b with ⟨s1, evs, e⟩
    cases e with
    | some e =>
      rw [runBatches_cons_some _ s b rest s1 evs e hsb] at hnone
      simp at hnone
    | none =>
      rw [runBatches_cons_none _ s b rest s1 evs hsb] at hnone ⊢
      have hblock : lastPersist? evs = some s1.st := hstep s b s1 evs hsb
      cases hrest : rest with
      | nil =>
        simp only [hrest, runBatches, List.map_cons, List.map_nil, List.flatten_cons,
          List.flatten_nil, List.append_nil]
        simpa [runBatches] using hblock
      | cons r2 rs2 =>
        rw [← hrest]
        simp only [List.map_cons, List.flatten_cons]
        rw [lastPersist?_append]
        rw [ih s1 hnone (by rw [hrest]; simp)]
        rfl

theorem runBatches_length_of_none
    (step : LState → List String → LState × List Ev × Option CycleEnd) :
    ∀ (bs : List (List String)) (s : LState), (runBatches step s bs).2.2 = none →
      (runBatches step s bs).2.1.length = bs.length := by
  intro bs
  induction bs with
  | nil => intro s _; simp [runBatches]
  | cons b rest ih =>
    intro s hnone
    rcases hsb : step s b with ⟨s1, evs, e⟩
    cases e with
    | some e =>
      rw [runBatches_cons_some _ s b rest s1 evs e hsb] at hnone
      simp at hnone
    | none =>
      rw [runBatches_cons_none _ s b rest s1 evs hsb] at hnone ⊢
      simp only [List.length_cons]
      rw [ih s1 hnone]

theorem mem_pairs_flatten {prs0 : List (LState × List Ev)} {ev : Ev}
    (h : ev ∈ (prs0.map (·.2)).flatten) : ∃ pr ∈ prs0, ev ∈ pr.2 := by
  rw [List.mem_flatten] at h
  obtain ⟨l, hl, hev⟩ := h
  rw [List.mem_map] at hl
  obtain ⟨pr, hpr, rfl⟩ := hl
  exact ⟨pr, hpr, hev⟩

theorem uploadStep_no_sendD (iso : String) (s : LState) (bb : List String) :
    ∀ ev ∈ (uploadStep iso s bb).2.1, isDeleteSend ev = false := by
  intro ev hev
  rcases uploadStep_events iso s bb ev hev with rfl | ⟨stx, rfl⟩ | rfl | rfl <;> rfl

theorem confirmsDelete_isDeleteSend (p : String) (ev : Ev) (h : confirmsDelete p ev) :
    isDeleteSend ev = true := by
  obtain ⟨b, parts, body, rfl, _, _⟩ := h
  rfl

/-! ## Lemmas: aborts are never normal -/

theorem uploadStep_end_ne_normal (iso : String) (s : LState) (b : List String) :
    (uploadStep iso s b).2.2 ≠ some CycleEnd.normal := by
  rcases s with ⟨st, fails, rs⟩
  cases rs with
  | nil => simp [uploadStep]
  | cons r rest =>
    cases r with
    | exn => simp [uploadStep]
    | ok body => simp [uploadStep]
    | err c =>
      simp only [uploadStep]
      split <;> simp

theorem deleteStep_end_ne_normal (s : LState) (b : List String) :
    (deleteStep s b).2.2 ≠ some CycleEnd.normal := by
  rcases s with ⟨st, fails, rs⟩
  cases rs with
  | nil => simp [deleteStep]
  | cons r rest =>
    cases r with
    | exn => simp [deleteStep]
    | ok body => simp [deleteStep]
    | err c =>
      simp only [deleteStep]
      split <;> simp

theorem runBatches_end_ne_normal
    (step : LState → List String → LState × List Ev × Option CycleEnd)
    (hstep : ∀ s b, (step s b).2.2 ≠ some CycleEnd.normal) :
    ∀ (bs : List (List String)) (s : LState),
      (runBatches step s bs).2.2 ≠ some CycleEnd.normal := by
  intro bs
  induction bs with
  | nil => intro s; simp [runBatches]
  | cons b rest ih =>
    intro s
    rcases hsb : step s b with ⟨s1, evs, e⟩
    cases e with
    | some e =>
      rw [runBatches_cons_some _ s b rest s1 evs e hsb]
      have := hstep s b
      rw [hsb] at this
      simpa using this
    | none =>
      rw [runBatches_cons_none _ s b rest s1 evs hsb]
      exact ih s1

/-! ## Lemmas: fully successful runs -/

theorem uploadLoop_allOk (iso : String) (names : List String) :
    ∀ (bs : List (List String)) (s : LState),
      (∀ r ∈ s.rs, OkAll names r) → (∀ b ∈ bs, ∀ p ∈ b, p ∈ names) →
      (runBatches (uploadStep iso) s bs).2.2 = none →
      (runBatches (uploadStep iso) s bs).1.st =
        bs.flatten.foldl (fun st p => setEntry st p iso) s.st ∧
      (runBatches (uploadStep iso) s bs).1.rs = s.rs.drop bs.length := by
  intro bs
  induction bs with
  | nil =>
    intro s _ _ _
    simp [runBatches]
  | cons b rest ih =>
    intro s hok hmem hnone
    rcases s with ⟨st, fails, rs⟩
    cases rs with
    | nil =>
      rw [runBatches_cons_some _ _ b rest _ _ _ (rfl :
        uploadStep iso ⟨st, fails, []⟩ b =
          (⟨st, fails, []⟩, [Ev.sendU b (wireNames b) .exn], some .pyExn))] at hnone
      simp at hnone
    | cons r rest2 =>
      obtain ⟨body, rfl, hconf⟩ := hok r (by simp)
      have hstep : uploadStep iso ⟨st, fails, BatchResult.ok body :: rest2⟩ b =
          (⟨applyUpload iso body st b, 0, rest2⟩,
            [Ev.sendU b (wireNames b) (.ok body), Ev.persist (applyUpload iso body st b)],
            none) := rfl
      rw [runBatches_cons_none _ _ b rest _ _ hstep] at hnone ⊢
      have happ : applyUpload iso body st b = b.foldl (fun st p => setEntry st p iso) st :=
        applyUpload_all iso body st b
          (fun p hp => hconf p (hmem b (by simp) p hp))
      have hih := ih ⟨applyUpload iso body st b, 0, rest2⟩
        (fun r2 hr2 => hok r2 (List.mem_cons_of_mem _ hr2))
        (fun b2 hb2 => hmem b2 (List.mem_cons_of_mem _ hb2)) hnone
      refine ⟨?_, ?_⟩
      · rw [hih.1]
        simp only [List.flatten_cons, List.foldl_append, happ]
      · rw [hih.2]
        rfl

theorem deleteLoop_allOk (names : List String) :
    ∀ (bs : List (List String)) (s : LState),
      (∀ r ∈ s.rs, OkAll names r) → (∀ b ∈ bs, ∀ p ∈ b, p ∈ names) →
      (runBatches deleteStep s bs).2.2 = none →
      (runBatches deleteStep s bs).1.st =
        bs.flatten.foldl (fun st p => delEntry st p) s.st := by
  intro bs
  induction bs with
  | nil =>
    intro s _ _ _
    simp [runBatches]
  | cons b rest ih =>
    intro s hok hmem hnone
    rcases s with ⟨st, fails, rs⟩
    cases rs with
    | nil =>
      rw [runBatches_cons_some _ _ b rest _ _ _ (rfl :
        deleteStep ⟨st, fails, []⟩ b =
          (⟨st, fails, []⟩, [Ev.sendD b (wireNames b) .exn], some .pyExn))] at hnone
      simp at hnone
    | cons r rest2 =>
      obtain ⟨body, rfl, hconf⟩ := hok r (by simp)
      have hstep : deleteStep ⟨st, fails, BatchResult.ok body :: rest2⟩ b =
          (⟨applyDelete body st b, 0, rest2⟩,
            [Ev.sendD b (wireNames b) (.ok body), Ev.persist (applyDelete body st b)],
            none) := rfl
      rw [runBatches_cons_none _ _ b rest _ _ hstep] at hnone ⊢
      have happ : applyDelete body st b = b.foldl (fun st p => delEntry st p) st :=
        applyDelete_all body st b
          (fun p hp => hconf p (hmem b (by simp) p hp))
      have hih := ih ⟨applyDelete body st b, 0, rest2⟩
        (fun r2 hr2 => hok r2 (List.mem_cons_of_mem _ hr2))
        (fun b2 hb2 => hmem b2 (List.mem_cons_of_mem _ hb2)) hnone
      rw [hih]
      simp only [List.flatten_cons, List.foldl_append, happ]

theorem uploadLoop_rs_drop (iso : String) :
    ∀ (bs : List (List String)) (s : LState),
      (runBatches (uploadStep iso) s bs).1.rs.Sublist s.rs := by
  intro bs
  induction bs with
  | nil => intro s; simp [runBatches]
  | cons b rest ih =>
    intro s
    rcases hsb : uploadStep iso s b with ⟨s1, evs, e⟩
    have hs1 : s1.rs = s.rs.tail := by
      have := uploadStep_rs iso s b
      rwa [hsb] at this
    have htail : s.rs.tail.Sublist s.rs := List.tail_sublist s.rs
    cases e with
    | some e =>
      rw [runBatches_cons_some _ s b rest s1 evs e hsb]
      rw [hs1]
      exact htail
    | none =>
      rw [runBatches_cons_none _ s b rest s1 evs hsb]
      exact (ih s1).trans (hs1 ▸ htail)

/-! ## Lemmas: the detector on fully known states -/

theorem uploadCandidate?_isSome (tc : TimeCodec) (st : SyncMap) (p : String) (m : Nat)
    (hwf : WFState tc st) : (uploadCandidate? tc st p m).isSome := by
  unfold uploadCandidate? lastSyncStr
  cases hlv : lookupV st p with
  | none => simp
  | some v =>
    by_cases hemp : v = ""
    · simp [hemp]
    · rcases hwf (p, v) (mem_of_lookupV st p v hlv) with hnev | ⟨_, hdec⟩
      · simp only at hnev
        simp [hemp, hnev]
      · by_cases hnev : v = "never"
        · simp [hemp, hnev]
        · simp only [hemp, hnev, if_neg, if_false]
          obtain ⟨t, ht⟩ := Option.isSome_iff_exists.mp hdec
          simp [ht]

theorem detectUploads_mem (tc : TimeCodec) (st : SyncMap) :
    ∀ (cat : List (String × Nat)) (cands : List String),
      detectUploads tc st cat = some cands →
      ∀ pm ∈ cat, uploadCandidate? tc st pm.1 pm.2 = some true → pm.1 ∈ cands := by
  intro cat
  induction cat with
  | nil => intro cands _ pm hpm; simp at hpm
  | cons pm0 rest ih =>
    intro cands h pm hpm htrue
    simp only [detectUploads, Option.bind_eq_bind, Option.bind] at h
    rcases hb : uploadCandidate? tc st pm0.1 pm0.2 with _ | b
    · rw [hb] at h; simp at h
    · rw [hb] at h
      simp only at h
      rcases ht : detectUploads tc st rest with _ | tail
      · rw [ht] at h; simp at h
      · rw [ht] at h
        obtain rfl : (if b = true then pm0.1 :: tail else tail) = cands := Option.some.inj h
        rcases List.mem_cons.mp hpm with rfl | hpm2
        · rw [hb] at htrue
          obtain rfl : b = true := Option.some.inj htrue
          simp
        · have := ih tail ht pm hpm2 htrue
          by_cases hbb : b = true <;> simp [hbb, this]

theorem detectUploads_not_mem (tc : TimeCodec) (st : SyncMap) :
    ∀ (cat : List (String × Nat)) (cands : List String),
      detectUploads tc st cat = some cands →
      ∀ pm ∈ cat, pm.1 ∉ cands → uploadCandidate? tc st pm.1 pm.2 = some false := by
  intro cat
  induction cat with
  | nil => intro cands _ pm hpm; simp at hpm
  | cons pm0 rest ih =>
    intro cands h pm hpm hnot
    simp only [detectUploads, Option.bind_eq_bind, Option.bind] at h
    rcases hb : uploadCandidate? tc st pm0.1 pm0.2 with _ | b
    · rw [hb] at h; simp at h
    · rw [hb] at h
      simp only at h
      rcases ht : detectUploads tc st rest with _ | tail
      · rw [ht] at h; simp at h
      · rw [ht] at h
        obtain rfl : (if b = true then pm0.1 :: tail else tail) = cands := Option.some.inj h
        rcases List.mem_cons.mp hpm with rfl | hpm2
        · cases b with
          | true => exact absurd (by simp) hnot
          | false => exact hb
        · refine ih tail ht pm hpm2 ?_
          intro hmem
          apply hnot
          by_cases hbb : b = true <;> simp [hbb, hmem]

theorem detectUploads_all_false (tc : TimeCodec) (st : SyncMap) :
    ∀ (cat : List (String × Nat)),
      (∀ pm ∈ cat, uploadCandidate? tc st pm.1 pm.2 = some false) →
      detectUploads tc st cat = some [] := by
  intro cat
  induction cat with
  | nil => intro _; rfl
  | cons pm0 rest ih =>
    intro h
    simp only [detectUploads, Option.bind_eq_bind, Option.bind]
    rw [h pm0 (by simp)]
    simp only
    rw [ih (fun pm hpm => h pm (List.mem_cons_of_mem _ hpm))]
    rfl

theorem keys_foldl_set_subset (l : List String) (st : SyncMap) (v : String) :
    ∀ k ∈ (l.foldl (fun st p => setEntry st p v) st).map (·.1),
      k ∈ st.map (·.1) ∨ k ∈ l := by
  induction l generalizing st with
  | nil => intro k hk; exact Or.inl hk
  | cons p tail ih =>
    intro k hk
    rw [List.foldl_cons] at hk
    rcases ih (setEntry st p v) k hk with h | h
    · rw [keys_setEntry] at h
      by_cases hp : p ∈ st.map (·.1)
      · rw [if_pos hp] at h
        exact Or.inl h
      · rw [if_neg hp] at h
        rcases List.mem_append.mp h with h | h
        · exact Or.inl h
        · simp only [List.mem_singleton] at h
          exact Or.inr (by simp [h])
    · exact Or.inr (List.mem_cons_of_mem _ h)

/-! ## Lemmas: the concrete codec -/

theorem unaryCodec_roundtrip (t : Nat) : unaryCodec.dec (unaryCodec.enc t) = some t := by
  show some ((List.replicate (t + 1) 'I').length - 1) = some t
  simp

theorem unaryCodec_ne_empty (t : Nat) : unaryCodec.enc t ≠ "" := by
  intro h
  have h2 : (List.replicate (t + 1) 'I' : List Char) = [] := congrArg String.data h
  simp at h2

theorem unaryCodec_ne_never (t : Nat) : unaryCodec.enc t ≠ "never" := by
  intro h
  have h2 : (List.replicate (t + 1) 'I' : List Char) = "never".data := congrArg String.data h
  rw [List.replicate_succ] at h2
  have h3 : ('I' : Char) = 'n' := by
    simpa using congrArg (fun l => l.headD 'x') h2
  exact absurd h3 (by decide)

/-! ## The claims -/

/-- C1: the circuit breaker does fire after 7 consecutive batch-level
failures (the cycle ends by sys.exit() and no 8th batch is attempted),
but the claim that the process then terminates immediately with a
non-zero exit status is wrong on both counts: sys.exit() is called
with no argument, so a one-shot run terminates with exit status 0, and
in continuous mode the bare except clause of sync_continuously catches
the SystemExit, so the scheduler runs the next cycle as if nothing had
happened (here: 7 upload exchanges in each of two consecutive cycles,
14 in total, after the breaker fired in the first). -/
theorem C1_fatal_abort_behavior :
    (sync unaryCodec ⟨10, 1, false⟩ []
      ⟨[("f1", 1), ("f2", 1), ("f3", 1), ("f4", 1), ("f5", 1), ("f6", 1), ("f7", 1), ("f8", 1)],
        9, List.replicate 8 (BatchResult.err 500)⟩).res = CycleEnd.sysExit ∧
    onceExitCode (sync unaryCodec ⟨10, 1, false⟩ []
      ⟨[("f1", 1), ("f2", 1), ("f3", 1), ("f4", 1), ("f5", 1), ("f6", 1), ("f7", 1), ("f8", 1)],
        9, List.replicate 8 (BatchResult.err 500)⟩) = 0 ∧
    (sync unaryCodec ⟨10, 1, false⟩ []
      ⟨[("f1", 1), ("f2", 1), ("f3", 1), ("f4", 1), ("f5", 1), ("f6", 1), ("f7", 1), ("f8", 1)],
        9, List.replicate 8 (BatchResult.err 500)⟩).blocks.length = 7 ∧
    ((syncContinuously unaryCodec ⟨10, 1, false⟩ 5 []
      [⟨[("f1", 1), ("f2", 1), ("f3", 1), ("f4", 1), ("f5", 1), ("f6", 1), ("f7", 1), ("f8", 1)],
        9, List.replicate 8 (BatchResult.err 500)⟩,
       ⟨[("f1", 1), ("f2", 1), ("f3", 1), ("f4", 1), ("f5", 1), ("f6", 1), ("f7", 1), ("f8", 1)],
        9, List.replicate 8 (BatchResult.err 500)⟩]).1.filter isUploadSend).length = 14 := by
  refine ⟨?_, ?_, ?_, ?_⟩ <;> decide

/-- C5: within one cycle, after every batch exchange that is not the
last one of the cycle, if the consecutive-failure counter exceeds 3
then the events of that very exchange include a 30-unit sleep; since
the blocks of a cycle are emitted in order, the sleep precedes the
next batch exchange. (After the final exchange of a cycle there is no
next batch, so no sleep is claimed there.) -/
theorem C5_backoff_sleep (tc : TimeCodec) (pms : Params) (st0 : SyncMap) (env : CycleEnv) :
    ∀ pr ∈ (sync tc pms st0 env).blocks.dropLast,
      pr.1.fails > 3 → Ev.sleep 30 ∈ pr.2 := by
  have hu : ∀ s b s1 evs, uploadStep (tc.enc env.syncTime) s b = (s1, evs, none) →
      (s1.fails > 3 → Ev.sleep 30 ∈ evs) :=
    fun s b s1 evs h hf => uploadStep_none_sleep (tc.enc env.syncTime) s b s1 evs h hf
  have hd : ∀ s b s1 evs, deleteStep s b = (s1, evs, none) →
      (s1.fails > 3 → Ev.sleep 30 ∈ evs) :=
    fun s b s1 evs h hf => deleteStep_none_sleep s b s1 evs h hf
  cases hdet : detectUploads tc st0 env.catalog with
  | none =>
    rw [sync_shape_detectFail tc pms st0 env hdet]
    intro pr hpr
    simp at hpr
  | some cands =>
    rcases hup : runBatches (uploadStep (tc.enc env.syncTime)) ⟨st0, 0, env.responses⟩
      (chunks pms.batchSize (cands.take pms.maxUploads)) with ⟨s1, prs, e⟩
    have hupDrop : ∀ pr ∈ prs.dropLast, pr.1.fails > 3 → Ev.sleep 30 ∈ pr.2 := by
      have h := runBatches_dropLast_prop (uploadStep (tc.enc env.syncTime))
        (fun s1 evs => s1.fails > 3 → Ev.sleep 30 ∈ evs) hu
        (chunks pms.batchSize (cands.take pms.maxUploads)) ⟨st0, 0, env.responses⟩
      rw [hup] at h
      exact h
    cases e with
    | some e =>
      rw [sync_shape_abort tc pms st0 env cands s1 prs e hdet hup]
      exact hupDrop
    | none =>
      have hupAll : ∀ pr ∈ prs, pr.1.fails > 3 → Ev.sleep 30 ∈ pr.2 := by
        have h := runBatches_prop_of_none (uploadStep (tc.enc env.syncTime))
          (fun s1 evs => s1.fails > 3 → Ev.sleep 30 ∈ evs) hu
          (chunks pms.batchSize (cands.take pms.maxUploads)) ⟨st0, 0, env.responses⟩
        rw [hup] at h
        exact h (by rfl)
      cases hm : pms.manifest with
      | true =>
        rw [sync_shape_manifest tc pms st0 env cands s1 prs hdet hup hm]
        exact hupDrop
      | false =>
        rw [sync_shape_full tc pms st0 env cands s1 prs hdet hup hm]
        rcases hdel : runBatches deleteStep
            ⟨purgeNever (env.catalog.map (·.1)) s1.st, s1.fails, s1.rs⟩
            (chunks pms.batchSize (deleteCandidates (env.catalog.map (·.1)) s1.st))
          with ⟨s3, dprs, e2⟩
        rw [hdel]
        have hdelDrop : ∀ pr ∈ dprs.dropLast, pr.1.fails > 3 → Ev.sleep 30 ∈ pr.2 := by
          have h := runBatches_dropLast_prop deleteStep
            (fun s1 evs => s1.fails > 3 → Ev.sleep 30 ∈ evs) hd
            (chunks pms.batchSize (deleteCandidates (env.catalog.map (·.1)) s1.st))
            ⟨purgeNever (env.catalog.map (·.1)) s1.st, s1.fails, s1.rs⟩
          rw [hdel] at h
          exact h
        intro pr hpr
        simp only at hpr
        cases hdp : dprs with
        | nil =>
          rw [hdp] at hpr
          simp only [List.append_nil] at hpr
          exact hupDrop pr hpr
        | cons q qs =>
          rw [hdp, List.dropLast_append_cons] at hpr
          rcases List.mem_append.mp hpr with hpr | hpr
          · exact hupAll pr hpr
          · exact hdelDrop pr (hdp ▸ hpr)

/-- C5 witness: with batch size 1 and five upload candidates, the
outcome sequence fail, fail, fail, fail, ok leaves the counter at 4
after the 4th exchange, and the 4th block indeed contains the 30-unit
sleep, which therefore precedes the 5th batch exchange. -/
theorem C5_backoff_sleep_witness :
    (sync unaryCodec ⟨10, 1, false⟩ []
      ⟨[("f1", 1), ("f2", 1), ("f3", 1), ("f4", 1), ("f5", 1)], 9,
        [BatchResult.err 500, BatchResult.err 500, BatchResult.err 500, BatchResult.err 500,
         BatchResult.ok "f5"]⟩).blocks.dropLast.get? 3 =
      some ⟨⟨[], 4, [BatchResult.ok "f5"]⟩,
        [Ev.sendU ["f4"] ["f4"] (BatchResult.err 500), Ev.persist [], Ev.sleep 30]⟩ ∧
    Ev.sleep 30 ∈ [Ev.sendU ["f4"] ["f4"] (BatchResult.err 500), Ev.persist [], Ev.sleep 30] := by
  have hg : (sync unaryCodec ⟨10, 1, false⟩ []
      ⟨[("f1", 1), ("f2", 1), ("f3", 1), ("f4", 1), ("f5", 1)], 9,
        [BatchResult.err 500, BatchResult.err 500, BatchResult.err 500, BatchResult.err 500,
         BatchResult.ok "f5"]⟩).blocks.dropLast.get? 3 =
      some ⟨⟨[], 4, [BatchResult.ok "f5"]⟩,
        [Ev.sendU ["f4"] ["f4"] (BatchResult.err 500), Ev.persist [], Ev.sleep 30]⟩ := by
    decide
  refine ⟨hg, ?_⟩
  exact C5_backoff_sleep unaryCodec ⟨10, 1, false⟩ []
    ⟨[("f1", 1), ("f2", 1), ("f3", 1), ("f4", 1), ("f5", 1)], 9,
      [BatchResult.err 500, BatchResult.err 500, BatchResult.err 500, BatchResult.err 500,
       BatchResult.ok "f5"]⟩ _ (List.get?_mem hg) (by decide)

/-- C6 counterexample: the spec counts a transport error as a
batch-level failure that increments the consecutive-failure counter,
but in the code a transport error is an uncaught exception: the cycle
dies on the spot and the counter is still 0 (not 1) after that
exchange. -/
theorem C6_counterexample :
    (sync unaryCodec ⟨10, 1, false⟩ []
      ⟨[("f1", 1), ("f2", 1)], 9, [BatchResult.exn]⟩).blocks.map (·.1.fails) = [0] ∧
    (sync unaryCodec ⟨10, 1, false⟩ []
      ⟨[("f1", 1), ("f2", 1)], 9, [BatchResult.exn]⟩).res = CycleEnd.pyExn ∧
    ¬ (sync unaryCodec ⟨10, 1, false⟩ []
      ⟨[("f1", 1), ("f2", 1)], 9, [BatchResult.exn]⟩).blocks.map (·.1.fails) = [1] := by
  refine ⟨?_, ?_, ?_⟩ <;> decide

/-- C6 amended: across every exchange of a cycle, upload and deletion
phases alike and with no reset at the phase boundary, the counter
after each exchange is: 0 after a success-status exchange regardless
of per-file outcomes, the previous value plus one after a non-success
status, and the previous value (untouched) when the exchange raises a
transport exception, in which case the cycle dies. The whole counter
history is determined by the exchange outcomes through failsOfTrace,
starting from 0 at the start of the cycle. -/
theorem C6_failure_counter_amended (tc : TimeCodec) (pms : Params) (st0 : SyncMap)
    (env : CycleEnv) :
    (sync tc pms st0 env).blocks.map (·.1.fails) =
      failsOfTrace 0 ((sync tc pms st0 env).blocks.map (·.2)) := by
  cases hdet : detectUploads tc st0 env.catalog with
  | none =>
    rw [sync_shape_detectFail tc pms st0 env hdet]
    simp [failsOfTrace]
  | some cands =>
    rcases hup : runBatches (uploadStep (tc.enc env.syncTime)) ⟨st0, 0, env.responses⟩
      (chunks pms.batchSize (cands.take pms.maxUploads)) with ⟨s1, prs, e⟩
    have hupTrace : prs.map (·.1.fails) = failsOfTrace 0 (prs.map (·.2)) := by
      have h := runBatches_failsTrace (uploadStep (tc.enc env.syncTime))
        (uploadStep_fails (tc.enc env.syncTime))
        (chunks pms.batchSize (cands.take pms.maxUploads)) ⟨st0, 0, env.responses⟩
      rw [hup] at h
      exact h
    cases e with
    | some e =>
      rw [sync_shape_abort tc pms st0 env cands s1 prs e hdet hup]
      exact hupTrace
    | none =>
      have hlast : (prs.map (·.1.fails)).getLastD 0 = s1.fails := by
        have hfin := runBatches_final (uploadStep (tc.enc env.syncTime))
          (chunks pms.batchSize (cands.take pms.maxUploads)) ⟨st0, 0, env.responses⟩
        rw [hup] at hfin
        simp only at hfin
        rw [show (prs.map fun pr => pr.1.fails) = (prs.map (·.1)).map (·.fails) from by
          simp [List.map_map]]
        rw [show (0 : Nat) = (⟨st0, 0, env.responses⟩ : LState).fails from rfl]
        rw [getLastD_map LState.fails (prs.map (·.1)) ⟨st0, 0, env.responses⟩]
        rw [← hfin]
      cases hm : pms.manifest with
      | true =>
        rw [sync_shape_manifest tc pms st0 env cands s1 prs hdet hup hm]
        exact hupTrace
      | false =>
        rw [sync_shape_full tc pms st0 env cands s1 prs hdet hup hm]
        rcases hdel : runBatches deleteStep
            ⟨purgeNever (env.catalog.map (·.1)) s1.st, s1.fails, s1.rs⟩
            (chunks pms.batchSize (deleteCandidates (env.catalog.map (·.1)) s1.st))
          with ⟨s3, dprs, e2⟩
        rw [hdel]
        have hdelTrace : dprs.map (·.1.fails) = failsOfTrace s1.fails (dprs.map (·.2)) := by
          have h := runBatches_failsTrace deleteStep deleteStep_fails
            (chunks pms.batchSize (deleteCandidates (env.catalog.map (·.1)) s1.st))
            ⟨purgeNever (env.catalog.map (·.1)) s1.st, s1.fails, s1.rs⟩
          rw [hdel] at h
          exact h
        simp only [List.map_append]
        rw [failsOfTrace_append, ← hupTrace, hlast, hupTrace, hdelTrace]

theorem upload_batches_facts (bsz maxU : Nat) (hbs : 1 ≤ bsz) (cands : List String)
    (sent : List (List String)) (k : Nat)
    (hs : sent = (chunks bsz (cands.take maxU)).take k) :
    (∀ b ∈ sent, b.length ≤ bsz) ∧ sent.flatten.length ≤ maxU ∧
      ∃ r, cands.take maxU = sent.flatten ++ r := by
  subst hs
  have hflat : ∃ r, cands.take maxU = ((chunks bsz (cands.take maxU)).take k).flatten ++ r := by
    obtain ⟨r, hr⟩ := flatten_take_append (chunks bsz (cands.take maxU)) k
    exact ⟨r, by rw [← hr, chunks_flatten bsz hbs]⟩
  refine ⟨?_, ?_, hflat⟩
  · intro b hb
    exact chunks_length_le bsz _ b (List.take_subset _ _ hb)
  · obtain ⟨r, hr⟩ := hflat
    have h2 : ((chunks bsz (cands.take maxU)).take k).flatten.length ≤
        (cands.take maxU).length := by
      have h3 := congrArg List.length hr
      rw [List.length_append] at h3
      omega
    exact h2.trans (List.length_take_le _ _)

/-- C8: no upload batch and no deletion batch put on the wire exceeds
batch-size entries; a cycle never uploads more than max-uploads files;
and the files actually uploaded are an initial segment of the
upload-candidate list truncated to the first max-uploads entries in
catalog order (an aborted cycle may send fewer). -/
theorem C8_batch_bounds (tc : TimeCodec) (pms : Params) (st0 : SyncMap) (env : CycleEnv)
    (hbs : 1 ≤ pms.batchSize) :
    (∀ b ∈ sentUploadBatches (sync tc pms st0 env), b.length ≤ pms.batchSize) ∧
    (∀ b ∈ sentDeleteBatches (sync tc pms st0 env), b.length ≤ pms.batchSize) ∧
    uploadsSent (sync tc pms st0 env) ≤ pms.maxUploads ∧
    (∀ cands, detectUploads tc st0 env.catalog = some cands →
      ∃ r, cands.take pms.maxUploads = (sentUploadBatches (sync tc pms st0 env)).flatten ++ r) := by
  cases hdet : detectUploads tc st0 env.catalog with
  | none =>
    rw [sync_shape_detectFail tc pms st0 env hdet]
    refine ⟨?_, ?_, ?_, ?_⟩
    · intro b hb; simp [sentUploadBatches, cycleTrace] at hb
    · intro b hb; simp [sentDeleteBatches, cycleTrace] at hb
    · simp [uploadsSent, sentUploadBatches, cycleTrace]
    · intro cands hc; exact absurd hc (by simp)
  | some cands =>
    rcases hup : runBatches (uploadStep (tc.enc env.syncTime)) ⟨st0, 0, env.responses⟩
      (chunks pms.batchSize (cands.take pms.maxUploads)) with ⟨s1, prs, e⟩
    have hsU : ((prs.map (·.2)).flatten).filterMap sendUBatch? =
        (chunks pms.batchSize (cands.take pms.maxUploads)).take prs.length := by
      have h := runBatches_sends (uploadStep (tc.enc env.syncTime)) sendUBatch?
        (uploadStep_filterMap_sendU (tc.enc env.syncTime))
        (chunks pms.batchSize (cands.take pms.maxUploads)) ⟨st0, 0, env.responses⟩
      rw [hup] at h
      exact h
    have hsD0 : ((prs.map (·.2)).flatten).filterMap sendDBatch? = [] := by
      have h := runBatches_sends_none (uploadStep (tc.enc env.syncTime)) sendDBatch?
        (uploadStep_filterMap_sendD (tc.enc env.syncTime))
        (chunks pms.batchSize (cands.take pms.maxUploads)) ⟨st0, 0, env.responses⟩
      rw [hup] at h
      exact h
    have hfacts := upload_batches_facts pms.batchSize pms.maxUploads hbs cands
      ((chunks pms.batchSize (cands.take pms.maxUploads)).take prs.length) prs.length rfl
    cases e with
    | some e =>
      rw [sync_shape_abort tc pms st0 env cands s1 prs e hdet hup]
      refine ⟨?_, ?_, ?_, ?_⟩
      · intro b hb
        simp only [sentUploadBatches, cycleTrace, hsU] at hb
        exact hfacts.1 b hb
      · intro b hb
        simp only [sentDeleteBatches, cycleTrace, hsD0] at hb
        simp at hb
      · simp only [uploadsSent, sentUploadBatches, cycleTrace, hsU]
        exact hfacts.2.1
      · intro cands2 hc2
        obtain rfl : cands = cands2 := Option.some.inj hc2
        simp only [sentUploadBatches, cycleTrace, hsU]
        exact hfacts.2.2
    | none =>
      cases hm : pms.manifest with
      | true =>
        rw [sync_shape_manifest tc pms st0 env cands s1 prs hdet hup hm]
        refine ⟨?_, ?_, ?_, ?_⟩
        · intro b hb
          simp only [sentUploadBatches, cycleTrace, hsU] at hb
          exact hfacts.1 b hb
        · intro b hb
          simp only [sentDeleteBatches, cycleTrace, hsD0] at hb
          simp at hb
        · simp only [uploadsSent, sentUploadBatches, cycleTrace, hsU]
          exact hfacts.2.1
        · intro cands2 hc2
          obtain rfl : cands = cands2 := Option.some.inj hc2
          simp only [sentUploadBatches, cycleTrace, hsU]
          exact hfacts.2.2
      | false =>
        rw [sync_shape_full tc pms st0 env cands s1 prs hdet hup hm]
        have hdU := runBatches_sends_none deleteStep sendUBatch? deleteStep_filterMap_sendU
          (chunks pms.batchSize (deleteCandidates (env.catalog.map (·.1)) s1.st))
          ⟨purgeNever (env.catalog.map (·.1)) s1.st, s1.fails, s1.rs⟩
        have hdD := runBatches_sends deleteStep sendDBatch? deleteStep_filterMap_sendD
          (chunks pms.batchSize (deleteCandidates (env.catalog.map (·.1)) s1.st))
          ⟨purgeNever (env.catalog.map (·.1)) s1.st, s1.fails, s1.rs⟩
        refine ⟨?_, ?_, ?_, ?_⟩
        · intro b hb
          simp only [sentUploadBatches, cycleTrace, List.map_append, List.flatten_append,
            List.filterMap_append, hsU, hdU, List.append_nil] at hb
          exact hfacts.1 b hb
        · intro b hb
          simp only [sentDeleteBatches, cycleTrace, List.map_append, List.flatten_append,
            List.filterMap_append, hsD0, hdD, List.nil_append] at hb
          exact chunks_length_le pms.batchSize _ b (List.take_subset _ _ hb)
        · simp only [uploadsSent, sentUploadBatches, cycleTrace, List.map_append,
            List.flatten_append, List.filterMap_append, hsU, hdU, List.append_nil]
          exact hfacts.2.1
        · intro cands2 hc2
          obtain rfl : cands = cands2 := Option.some.inj hc2
          simp only [sentUploadBatches, cycleTrace, List.map_append, List.flatten_append,
            List.filterMap_append, hsU, hdU, List.append_nil]
          exact hfacts.2.2


/-- C8 witness: batch size 2, max-uploads 1, two never-synced files:
the single exchange carries one file, within both bounds, and the sent
files are a truncation of the candidate list. -/
theorem C8_batch_bounds_witness :
    1 ≤ 2 ∧
    ((∀ b ∈ sentUploadBatches (sync unaryCodec ⟨1, 2, false⟩ []
        ⟨[("a", 1), ("b", 1)], 5, [BatchResult.ok "a"]⟩), b.length ≤ 2) ∧
     (∀ b ∈ sentDeleteBatches (sync unaryCodec ⟨1, 2, false⟩ []
        ⟨[("a", 1), ("b", 1)], 5, [BatchResult.ok "a"]⟩), b.length ≤ 2) ∧
     uploadsSent (sync unaryCodec ⟨1, 2, false⟩ []
        ⟨[("a", 1), ("b", 1)], 5, [BatchResult.ok "a"]⟩) ≤ 1 ∧
     (∀ cands, detectUploads unaryCodec [] [("a", 1), ("b", 1)] = some cands →
       ∃ r, cands.take 1 = (sentUploadBatches (sync unaryCodec ⟨1, 2, false⟩ []
         ⟨[("a", 1), ("b", 1)], 5, [BatchResult.ok "a"]⟩)).flatten ++ r)) :=
  ⟨by decide, C8_batch_bounds unaryCodec ⟨1, 2, false⟩ []
    ⟨[("a", 1), ("b", 1)], 5, [BatchResult.ok "a"]⟩ (by decide)⟩

/-- C7: for a catalog path whose recorded state entry respects the
documented contract (absent, the literal never, or a non-empty
decodable timestamp), the change detector marks it as an upload
candidate exactly when the recorded last-sync value is absent or
never, or the modification time read at detection time strictly
exceeds the decoded recorded time. -/
theorem C7_upload_candidate (tc : TimeCodec) (st : SyncMap) (p : String) (m : Nat)
    (hcontract : lookupV st p = none ∨ lookupV st p = some "never" ∨
      (∃ v t, lookupV st p = some v ∧ v ≠ "" ∧ tc.dec v = some t)) :
    ∃ b, uploadCandidate? tc st p m = some b ∧
      (b = true ↔ (lookupV st p = none ∨ lookupV st p = some "never" ∨
        (∃ v t, lookupV st p = some v ∧ tc.dec v = some t ∧ m > t))) := by
  rcases hcontract with h | h | ⟨v, t, h, hne, hdec⟩
  · refine ⟨true, ?_, by simp [h]⟩
    simp [uploadCandidate?, lastSyncStr, h]
  · refine ⟨true, ?_, by simp [h]⟩
    simp [uploadCandidate?, lastSyncStr, h]
  · by_cases hnev : v = "never"
    · subst hnev
      refine ⟨true, ?_, by simp [h]⟩
      simp [uploadCandidate?, lastSyncStr, h]
    · refine ⟨decide (m > t), ?_, ?_⟩
      · simp [uploadCandidate?, lastSyncStr, h, hne, hnev, hdec]
      · constructor
        · intro hb
          refine Or.inr (Or.inr ⟨v, t, h, hdec, of_decide_eq_true hb⟩)
        · intro hb
          rcases hb with hb | hb | ⟨v2, t2, hb, hdec2, hmt⟩
          · rw [h] at hb; exact absurd hb (by simp)
          · rw [h] at hb
            exact absurd (Option.some.inj hb) hnev
          · rw [h] at hb
            obtain rfl : v = v2 := Option.some.inj hb
            rw [hdec] at hdec2
            obtain rfl : t = t2 := Option.some.inj hdec2
            exact decide_eq_true hmt

/-- C7 witness: a file recorded as synced at time 1 whose modification
time is 2 is an upload candidate, and the candidate test agrees with
the absent-or-never-or-newer characterization. -/
theorem C7_upload_candidate_witness :
    (lookupV [("a.md", "II")] "a.md" = some "II" ∧ ("II" : String) ≠ "" ∧
      unaryCodec.dec "II" = some 1) ∧
    (∃ b, uploadCandidate? unaryCodec [("a.md", "II")] "a.md" 2 = some b ∧
      (b = true ↔ (lookupV [("a.md", "II")] "a.md" = none ∨
        lookupV [("a.md", "II")] "a.md" = some "never" ∨
        (∃ v t, lookupV [("a.md", "II")] "a.md" = some v ∧ unaryCodec.dec v = some t ∧
          2 > t)))) :=
  ⟨⟨by decide, by decide, by decide⟩,
    C7_upload_candidate unaryCodec [("a.md", "II")] "a.md" 2
      (Or.inr (Or.inr ⟨"II", 1, by decide, by decide, by decide⟩))⟩

/-- C10: a state entry whose value is the empty string (a falsy value
outside the documented contract) is coerced to never by the
sync_files.get(path) or never idiom, so the file is an upload
candidate whatever its modification time. -/
theorem C10_falsy_value_never (tc : TimeCodec) (st : SyncMap) (p : String) (m : Nat)
    (h : lookupV st p = some "") :
    uploadCandidate? tc st p m = some true := by
  unfold uploadCandidate? lastSyncStr
  rw [h]
  simp

/-- C10 witness: with the empty string recorded for the file and any
modification time (here 0), the file is an upload candidate. -/
theorem C10_falsy_value_never_witness :
    lookupV [("x.md", "")] "x.md" = some "" ∧
    uploadCandidate? unaryCodec [("x.md", "")] "x.md" 0 = some true :=
  ⟨by decide, C10_falsy_value_never unaryCodec [("x.md", "")] "x.md" 0 (by decide)⟩

/-- C4 counterexample: the engine names multipart parts and matches
the response body against os.path.relpath of the file, which is the
normalized relative path, not the basename. For the file sub/a.md and
a success response whose body contains the basename a.md but not the
relative path sub/a.md, the claim as stated predicts an individually
successful upload and a part named a.md; the code sends a part named
sub/a.md and records no sync for the file. -/
theorem C4_counterexample :
    basename "sub/a.md" = "a.md" ∧
    relpathNorm "sub/a.md" = "sub/a.md" ∧
    ("sub/a.md" : String) ≠ "a.md" ∧
    strContains "a.md uploaded" (basename "sub/a.md") = true ∧
    cycleTrace (sync unaryCodec ⟨10, 1, false⟩ []
      ⟨[("sub/a.md", 1)], 9, [BatchResult.ok "a.md uploaded"]⟩) =
      [Ev.sendU ["sub/a.md"] ["sub/a.md"] (BatchResult.ok "a.md uploaded"), Ev.persist []] ∧
    lookupV (sync unaryCodec ⟨10, 1, false⟩ []
      ⟨[("sub/a.md", 1)], 9, [BatchResult.ok "a.md uploaded"]⟩).final.st "sub/a.md" = none := by
  refine ⟨?_, ?_, ?_, ?_, ?_, ?_⟩ <;> decide

/-- C4 amended: for every batch whose HTTP exchange returns a success
status, each file in the batch is treated as individually successful
(its state entry is stamped with the sync time) if and only if the
file's normalized relative path, os.path.relpath of the catalog path,
literally appears in the response body text; and each multipart part
sent on the wire is named by that normalized relative path, which
equals the basename only for files at the root of the sync tree. -/
theorem C4_success_interpretation_amended :
    (∀ (iso body : String) (st : SyncMap) (fails : Nat) (rest : List BatchResult)
        (batch : List String) (p : String),
      lookupV ((uploadStep iso ⟨st, fails, BatchResult.ok body :: rest⟩ batch).1).st p =
        (if p ∈ batch ∧ strContains body (relpathNorm p) = true then some iso
         else lookupV st p)) ∧
    (∀ (tc : TimeCodec) (pms : Params) (st0 : SyncMap) (env : CycleEnv),
      ∀ ev ∈ cycleTrace (sync tc pms st0 env), ∀ b parts r,
        (ev = Ev.sendU b parts r ∨ ev = Ev.sendD b parts r) → parts = b.map relpathNorm) := by
  constructor
  · intro iso body st fails rest batch p
    show lookupV (applyUpload iso body st batch) p = _
    exact lookupV_applyUpload iso body st batch p
  · intro tc pms st0 env
    apply sync_events_prop tc pms st0 env
      (fun ev => ∀ b parts r,
        (ev = Ev.sendU b parts r ∨ ev = Ev.sendD b parts r) → parts = b.map relpathNorm)
    · intro s bb ev hev b parts r hor
      rcases uploadStep_events (tc.enc env.syncTime) s bb ev hev with h | ⟨stx, h⟩ | h | h <;>
        rcases hor with rfl | rfl <;> simp_all [wireNames]
    · intro s bb ev hev b parts r hor
      rcases deleteStep_events s bb ev hev with h | ⟨stx, h⟩ | h | h <;>
        rcases hor with rfl | rfl <;> simp_all [wireNames]

/-- C4 witness: a success-status exchange for the batch containing
sub/a.md with a body naming sub/a.md records the file as synced, and
the wire part of the one upload exchange of a concrete cycle is named
by the normalized relative path. -/
theorem C4_success_interpretation_amended_witness :
    lookupV ((uploadStep "T" ⟨[], 0, [BatchResult.ok "sub/a.md done"]⟩ ["sub/a.md"]).1).st
        "sub/a.md" =
      (if "sub/a.md" ∈ ["sub/a.md"] ∧
          strContains "sub/a.md done" (relpathNorm "sub/a.md") = true then some "T"
       else lookupV [] "sub/a.md") ∧
    (Ev.sendU ["sub/a.md"] ["sub/a.md"] (BatchResult.ok "sub/a.md done") ∈
        cycleTrace (sync unaryCodec ⟨10, 1, false⟩ []
          ⟨[("sub/a.md", 1)], 9, [BatchResult.ok "sub/a.md done"]⟩) ∧
      (["sub/a.md"] : List String) = ["sub/a.md"].map relpathNorm) := by
  constructor
  · exact C4_success_interpretation_amended.1 "T" "sub/a.md done" [] 0
      [BatchResult.ok "sub/a.md done"] ["sub/a.md"] "sub/a.md"
  · refine ⟨by decide, ?_⟩
    exact C4_success_interpretation_amended.2 unaryCodec ⟨10, 1, false⟩ []
      ⟨[("sub/a.md", 1)], 9, [BatchResult.ok "sub/a.md done"]⟩
      (Ev.sendU ["sub/a.md"] ["sub/a.md"] (BatchResult.ok "sub/a.md done"))
      (by decide) ["sub/a.md"] ["sub/a.md"] (BatchResult.ok "sub/a.md done") (Or.inl rfl)

/-- C9: for a state entry whose path is absent from the catalog and
whose value is not the literal never: in a non-manifest cycle that
completes normally the path is sent in deletion batches exactly once,
and (whatever the responses) its state entry is removed exactly when
some deletion exchange got a success-status response whose body
mentions the path; in manifest mode the cycle emits no deletion
exchange at all and the entry is left untouched. -/
theorem C9_deletion_correctness (tc : TimeCodec) (pms : Params) (st0 : SyncMap)
    (env : CycleEnv) (p v : String)
    (hbs : 1 ≤ pms.batchSize)
    (hnd : KeysNodup st0)
    (hlk : lookupV st0 p = some v)
    (hv : v ≠ "never")
    (hcat : p ∉ env.catalog.map (·.1)) :
    (pms.manifest = false →
      ((sync tc pms st0 env).res = CycleEnd.normal →
        ((cycleTrace (sync tc pms st0 env)).filterMap sendDBatch?).flatten.count p = 1) ∧
      (lookupV (sync tc pms st0 env).final.st p = none ↔
        ∃ ev ∈ cycleTrace (sync tc pms st0 env), confirmsDelete p ev)) ∧
    (pms.manifest = true →
      (∀ ev ∈ cycleTrace (sync tc pms st0 env), isDeleteSend ev = false) ∧
      lookupV (sync tc pms st0 env).final.st p = some v) := by
  cases hdet : detectUploads tc st0 env.catalog with
  | none =>
    rw [sync_shape_detectFail tc pms st0 env hdet]
    constructor
    · intro _
      constructor
      · intro hres; simp at hres
      · constructor
        · intro hno; rw [hlk] at hno; simp at hno
        · rintro ⟨ev, hev, _⟩; simp [cycleTrace] at hev
    · intro _
      constructor
      · intro ev hev; simp [cycleTrace] at hev
      · exact hlk
  | some cands =>
    rcases hup : runBatches (uploadStep (tc.enc env.syncTime)) ⟨st0, 0, env.responses⟩
      (chunks pms.batchSize (cands.take pms.maxUploads)) with ⟨s1, prs, e⟩
    have hups : ∀ b ∈ chunks pms.batchSize (cands.take pms.maxUploads), p ∉ b := by
      intro b hb hpb
      have h1 : p ∈ cands.take pms.maxUploads := mem_chunks_subset _ _ b hb p hpb
      exact hcat (detectUploads_subset tc st0 env.catalog cands hdet p
        (List.take_subset _ _ h1))
    have hs1 : lookupV s1.st p = some v := by
      have h := uploadLoop_lookup_not_mem (tc.enc env.syncTime) p
        (chunks pms.batchSize (cands.take pms.maxUploads)) ⟨st0, 0, env.responses⟩ hups
      rw [hup] at h
      simp only at h
      rw [h]
      exact hlk
    have hnd1 : KeysNodup s1.st := by
      have h := runBatches_state_inv (uploadStep (tc.enc env.syncTime)) KeysNodup
        (fun s b => uploadStep_keysNodup (tc.enc env.syncTime) s b)
        (chunks pms.batchSize (cands.take pms.maxUploads)) ⟨st0, 0, env.responses⟩ hnd
      rw [hup] at h
      exact h
    have hupNoD : ∀ ev ∈ (prs.map (·.2)).flatten, isDeleteSend ev = false := by
      intro ev hev
      obtain ⟨pr, hpr, hev2⟩ := mem_pairs_flatten hev
      have h := runBatches_pairs_prop (uploadStep (tc.enc env.syncTime))
        (fun _ evs => ∀ ev ∈ evs, isDeleteSend ev = false)
        (fun s b => uploadStep_no_sendD (tc.enc env.syncTime) s b)
        (chunks pms.batchSize (cands.take pms.maxUploads)) ⟨st0, 0, env.responses⟩
      rw [hup] at h
      exact h pr hpr ev hev2
    cases e with
    | some e =>
      have hne : e ≠ CycleEnd.normal := by
        have h := runBatches_end_ne_normal (uploadStep (tc.enc env.syncTime))
          (uploadStep_end_ne_normal (tc.enc env.syncTime))
          (chunks pms.batchSize (cands.take pms.maxUploads)) ⟨st0, 0, env.responses⟩
        rw [hup] at h
        intro hee
        rw [hee] at h
        exact h rfl
      rw [sync_shape_abort tc pms st0 env cands s1 prs e hdet hup]
      constructor
      · intro _
        constructor
        · intro hres
          exact absurd hres hne
        · constructor
          · intro hno
            rw [hs1] at hno
            simp at hno
          · rintro ⟨ev, hev, hc⟩
            have h1 := hupNoD ev hev
            rw [confirmsDelete_isDeleteSend p ev hc] at h1
            simp at h1
      · intro _
        exact ⟨hupNoD, hs1⟩
    | none =>
      cases hm : pms.manifest with
      | true =>
        rw [sync_shape_manifest tc pms st0 env cands s1 prs hdet hup hm]
        constructor
        · intro hmf
          simp at hmf
        · intro _
          exact ⟨hupNoD, hs1⟩
      | false =>
        rw [sync_shape_full tc pms st0 env cands s1 prs hdet hup hm]
        constructor
        swap
        · intro hmt
          simp at hmt
        intro _
        have hcont : (env.catalog.map (·.1)).contains p = false := by
          simpa using hcat
        have hst2 : lookupV (purgeNever (env.catalog.map (·.1)) s1.st) p = some v :=
          lookupV_purgeNever_of_ne_never _ s1.st p v hs1 hv
        have htrack := deleteLoop_track p v
          (chunks pms.batchSize (deleteCandidates (env.catalog.map (·.1)) s1.st))
          ⟨purgeNever (env.catalog.map (·.1)) s1.st, s1.fails, s1.rs⟩ hst2
        constructor
        · -- the count: only under res = normal
          intro hres
          rcases hdel : (runBatches deleteStep
              ⟨purgeNever (env.catalog.map (·.1)) s1.st, s1.fails, s1.rs⟩
              (chunks pms.batchSize (deleteCandidates (env.catalog.map (·.1)) s1.st))).2.2
            with _ | e2
          · -- completed loop
            have hlen := runBatches_length_of_none deleteStep
              (chunks pms.batchSize (deleteCandidates (env.catalog.map (·.1)) s1.st))
              ⟨purgeNever (env.catalog.map (·.1)) s1.st, s1.fails, s1.rs⟩ hdel
            have hsD0 : ((prs.map (·.2)).flatten).filterMap sendDBatch? = [] := by
              have h := runBatches_sends_none (uploadStep (tc.enc env.syncTime)) sendDBatch?
                (uploadStep_filterMap_sendD (tc.enc env.syncTime))
                (chunks pms.batchSize (cands.take pms.maxUploads)) ⟨st0, 0, env.responses⟩
              rw [hup] at h
              exact h
            have hdD := runBatches_sends deleteStep sendDBatch? deleteStep_filterMap_sendD
              (chunks pms.batchSize (deleteCandidates (env.catalog.map (·.1)) s1.st))
              ⟨purgeNever (env.catalog.map (·.1)) s1.st, s1.fails, s1.rs⟩
            simp only [cycleTrace, List.map_append, List.flatten_append,
              List.filterMap_append, hsD0, hdD, List.nil_append, hlen, List.take_length]
            rw [chunks_flatten pms.batchSize hbs]
            exact count_deleteCandidates _ s1.st p v hnd1 hs1 hv hcont
          · -- the loop aborted: res is e2, not normal
            exfalso
            have hne2 : e2 ≠ CycleEnd.normal := by
              have h := runBatches_end_ne_normal deleteStep deleteStep_end_ne_normal
                (chunks pms.batchSize (deleteCandidates (env.catalog.map (·.1)) s1.st))
                ⟨purgeNever (env.catalog.map (·.1)) s1.st, s1.fails, s1.rs⟩
              rw [hdel] at h
              intro hee
              rw [hee] at h
              exact h rfl
            rw [hdel] at hres
            exact hne2 hres
        · -- removal iff confirmation
          rcases htrack with ⟨h1, h2⟩ | ⟨h1, h2⟩
          · constructor
            · intro hno
              rw [h1] at hno
              simp at hno
            · rintro ⟨ev, hev, hc⟩
              simp only [cycleTrace, List.map_append, List.flatten_append,
                List.mem_append] at hev
              rcases hev with hev | hev
              · have hx := hupNoD ev hev
                rw [confirmsDelete_isDeleteSend p ev hc] at hx
                simp at hx
              · exact absurd ⟨ev, hev, hc⟩ h2
          · constructor
            · intro _
              obtain ⟨ev, hev, hc⟩ := h2
              refine ⟨ev, ?_, hc⟩
              simp only [cycleTrace, List.map_append, List.flatten_append, List.mem_append]
              exact Or.inr hev
            · intro _
              exact h1

/-- C3 amended: in a full-scan cycle that completes normally, a state
entry with value never whose path is absent from the catalog is purged
from the in-memory state and no wire exchange ever carries that path;
the purge reaches the persisted artifact only because a state write
happens afterwards, which requires at least one deletion exchange in
the same cycle (here guaranteed by another stale non-never entry).
Without any deletion exchange the purge is lost on return, as the
counterexample shows. -/
theorem C3_never_purge_amended (tc : TimeCodec) (pms : Params) (st0 : SyncMap) (env : CycleEnv) (p : String)
    (hbs : 1 ≤ pms.batchSize)
    (hm : pms.manifest = false)
    (hnd : KeysNodup st0)
    (hlk : lookupV st0 p = some "never")
    (hcat : p ∉ env.catalog.map (·.1))
    (hnorm : (sync tc pms st0 env).res = CycleEnd.normal)
    (hstale : ∃ q w, lookupV st0 q = some w ∧ w ≠ "never" ∧ q ∉ env.catalog.map (·.1)) :
    lookupV (sync tc pms st0 env).final.st p = none ∧
    (∀ b ∈ sentUploadBatches (sync tc pms st0 env), p ∉ b) ∧
    (∀ b ∈ sentDeleteBatches (sync tc pms st0 env), p ∉ b) ∧
    lookupV (persistedState st0 (sync tc pms st0 env)) p = none := by
  cases hdet : detectUploads tc st0 env.catalog with
  | none =>
    rw [sync_shape_detectFail tc pms st0 env hdet] at hnorm
    simp at hnorm
  | some cands =>
    rcases hup : runBatches (uploadStep (tc.enc env.syncTime)) ⟨st0, 0, env.responses⟩
      (chunks pms.batchSize (cands.take pms.maxUploads)) with ⟨s1, prs, e⟩
    have hnotmem : ∀ r, r ∉ env.catalog.map (·.1) →
        ∀ b ∈ chunks pms.batchSize (cands.take pms.maxUploads), r ∉ b := by
      intro r hr b hb hrb
      have h1 : r ∈ cands.take pms.maxUploads := mem_chunks_subset _ _ b hb r hrb
      exact hr (detectUploads_subset tc st0 env.catalog cands hdet r
        (List.take_subset _ _ h1))
    have hpres : ∀ r, r ∉ env.catalog.map (·.1) → lookupV s1.st r = lookupV st0 r := by
      intro r hr
      have h := uploadLoop_lookup_not_mem (tc.enc env.syncTime) r
        (chunks pms.batchSize (cands.take pms.maxUploads)) ⟨st0, 0, env.responses⟩
        (hnotmem r hr)
      rw [hup] at h
      exact h
    have hs1 : lookupV s1.st p = some "never" := by rw [hpres p hcat]; exact hlk
    have hnd1 : KeysNodup s1.st := by
      have h := runBatches_state_inv (uploadStep (tc.enc env.syncTime)) KeysNodup
        (fun s b => uploadStep_keysNodup (tc.enc env.syncTime) s b)
        (chunks pms.batchSize (cands.take pms.maxUploads)) ⟨st0, 0, env.responses⟩ hnd
      rw [hup] at h
      exact h
    cases e with
    | some e =>
      rw [sync_shape_abort tc pms st0 env cands s1 prs e hdet hup] at hnorm
      have h := runBatches_end_ne_normal (uploadStep (tc.enc env.syncTime))
        (uploadStep_end_ne_normal (tc.enc env.syncTime))
        (chunks pms.batchSize (cands.take pms.maxUploads)) ⟨st0, 0, env.responses⟩
      rw [hup] at h
      simp only at hnorm
      rw [hnorm] at h
      exact absurd rfl h
    | none =>
      rw [sync_shape_full tc pms st0 env cands s1 prs hdet hup hm] at hnorm ⊢
      have hcont : (env.catalog.map (·.1)).contains p = false := by simpa using hcat
      have hst2 : lookupV (purgeNever (env.catalog.map (·.1)) s1.st) p = none :=
        lookupV_purgeNever_none _ s1.st p hnd1 hs1 hcont
      -- the deletion loop completed
      cases hd2 : (runBatches deleteStep
          ⟨purgeNever (env.catalog.map (·.1)) s1.st, s1.fails, s1.rs⟩
          (chunks pms.batchSize (deleteCandidates (env.catalog.map (·.1)) s1.st))).2.2 with
      | some e2 =>
        exfalso
        rw [hd2] at hnorm
        simp only at hnorm
        have h := runBatches_end_ne_normal deleteStep deleteStep_end_ne_normal
          (chunks pms.batchSize (deleteCandidates (env.catalog.map (·.1)) s1.st))
          ⟨purgeNever (env.catalog.map (·.1)) s1.st, s1.fails, s1.rs⟩
        rw [hd2] at h
        rw [hnorm] at h
        exact h rfl
      | none =>
        -- the stale entry is queued, so the deletion loop is nonempty
        obtain ⟨q, w, hlq, hwne, hqcat⟩ := hstale
        have hq1 : lookupV s1.st q = some w := by rw [hpres q hqcat]; exact hlq
        have hqdel : q ∈ deleteCandidates (env.catalog.map (·.1)) s1.st := by
          simp only [deleteCandidates, List.mem_map]
          refine ⟨(q, w), ?_, rfl⟩
          rw [List.mem_filter]
          refine ⟨mem_of_lookupV s1.st q w hq1, ?_⟩
          have hqcont : (env.catalog.map (·.1)).contains q = false := by simpa using hqcat
          rw [hqcont]
          simp [hwne]
        have hdelsne : deleteCandidates (env.catalog.map (·.1)) s1.st ≠ [] :=
          List.ne_nil_of_mem hqdel
        obtain ⟨d0, dt, hdcons⟩ := List.exists_cons_of_ne_nil hdelsne
        have hchne : chunks pms.batchSize
            (deleteCandidates (env.catalog.map (·.1)) s1.st) ≠ [] := by
          rw [hdcons]
          exact chunks_ne_nil pms.batchSize d0 dt
        have hfinalnone : lookupV ((runBatches deleteStep
            ⟨purgeNever (env.catalog.map (·.1)) s1.st, s1.fails, s1.rs⟩
            (chunks pms.batchSize
              (deleteCandidates (env.catalog.map (·.1)) s1.st))).1).st p = none :=
          deleteLoop_lookup_none p _ _ hst2
        have hlp := runBatches_lastPersist deleteStep deleteStep_lastPersist
          (chunks pms.batchSize (deleteCandidates (env.catalog.map (·.1)) s1.st))
          ⟨purgeNever (env.catalog.map (·.1)) s1.st, s1.fails, s1.rs⟩ hd2 hchne
        have hsU : ((prs.map (·.2)).flatten).filterMap sendUBatch? =
            (chunks pms.batchSize (cands.take pms.maxUploads)).take prs.length := by
          have h := runBatches_sends (uploadStep (tc.enc env.syncTime)) sendUBatch?
            (uploadStep_filterMap_sendU (tc.enc env.syncTime))
            (chunks pms.batchSize (cands.take pms.maxUploads)) ⟨st0, 0, env.responses⟩
          rw [hup] at h
          exact h
        have hsD0 : ((prs.map (·.2)).flatten).filterMap sendDBatch? = [] := by
          have h := runBatches_sends_none (uploadStep (tc.enc env.syncTime)) sendDBatch?
            (uploadStep_filterMap_sendD (tc.enc env.syncTime))
            (chunks pms.batchSize (cands.take pms.maxUploads)) ⟨st0, 0, env.responses⟩
          rw [hup] at h
          exact h
        have hdU := runBatches_sends_none deleteStep sendUBatch? deleteStep_filterMap_sendU
          (chunks pms.batchSize (deleteCandidates (env.catalog.map (·.1)) s1.st))
          ⟨purgeNever (env.catalog.map (·.1)) s1.st, s1.fails, s1.rs⟩
        have hdD := runBatches_sends deleteStep sendDBatch? deleteStep_filterMap_sendD
          (chunks pms.batchSize (deleteCandidates (env.catalog.map (·.1)) s1.st))
          ⟨purgeNever (env.catalog.map (·.1)) s1.st, s1.fails, s1.rs⟩
        refine ⟨hfinalnone, ?_, ?_, ?_⟩
        · intro b hb
          simp only [sentUploadBatches, cycleTrace, List.map_append, List.flatten_append,
            List.filterMap_append, hsU, hdU, List.append_nil] at hb
          exact hnotmem p hcat b (List.take_subset _ _ hb)
        · intro b hb hpb
          simp only [sentDeleteBatches, cycleTrace, List.map_append, List.flatten_append,
            List.filterMap_append, hsD0, hdD, List.nil_append] at hb
          have hpd : p ∈ deleteCandidates (env.catalog.map (·.1)) s1.st :=
            mem_chunks_subset _ _ b (List.take_subset _ _ hb) p hpb
          obtain ⟨v2, hmem2, hv2, _⟩ := mem_deleteCandidates_elim _ s1.st p hpd
          have := lookupV_of_mem_nodup s1.st p v2 hnd1 hmem2
          rw [hs1] at this
          exact hv2 (Option.some.inj this).symm
        · unfold persistedState
          simp only [cycleTrace, List.map_append, List.flatten_append]
          rw [lastPersist?_append, hlp]
          simpa using hfinalnone

/-- C3 counterexample: a state whose only entry is a never-valued path
absent from an empty catalog. The cycle completes normally, purges the
entry in memory and performs no network call at all, but since no
deletion batch follows, no state write happens after the purge: the
persisted artifact still maps the path to never, contradicting the
claim that the cycle purges the entry from the persisted sync state. -/
theorem C3_counterexample :
    lookupV (sync unaryCodec ⟨10, 1, false⟩ [("a.md", "never")] ⟨[], 9, []⟩).final.st
        "a.md" = none ∧
    (sync unaryCodec ⟨10, 1, false⟩ [("a.md", "never")] ⟨[], 9, []⟩).res = CycleEnd.normal ∧
    (∀ ev ∈ cycleTrace (sync unaryCodec ⟨10, 1, false⟩ [("a.md", "never")] ⟨[], 9, []⟩),
      False) ∧
    lookupV (persistedState [("a.md", "never")]
      (sync unaryCodec ⟨10, 1, false⟩ [("a.md", "never")] ⟨[], 9, []⟩)) "a.md" =
      some "never" := by
  refine ⟨by decide, by decide, ?_, by decide⟩
  intro ev hev
  have : cycleTrace (sync unaryCodec ⟨10, 1, false⟩ [("a.md", "never")] ⟨[], 9, []⟩) =
      [] := by decide
  rw [this] at hev
  simp at hev

/-- C3 witness: alongside the never entry, a second stale entry forces
one deletion batch, whose state write persists the purge; the cycle
carries the never path in no wire exchange. -/
theorem C3_never_purge_amended_witness :
    (1 ≤ 1 ∧ KeysNodup [("a.md", "never"), ("b.md", "II")] ∧
     lookupV [("a.md", "never"), ("b.md", "II")] "a.md" = some "never" ∧
     "a.md" ∉ (([] : List (String × Nat)).map (·.1)) ∧
     (sync unaryCodec ⟨10, 1, false⟩ [("a.md", "never"), ("b.md", "II")]
        ⟨[], 9, [BatchResult.ok "b.md"]⟩).res = CycleEnd.normal) ∧
    (lookupV (sync unaryCodec ⟨10, 1, false⟩ [("a.md", "never"), ("b.md", "II")]
        ⟨[], 9, [BatchResult.ok "b.md"]⟩).final.st "a.md" = none ∧
     (∀ b ∈ sentUploadBatches (sync unaryCodec ⟨10, 1, false⟩
        [("a.md", "never"), ("b.md", "II")] ⟨[], 9, [BatchResult.ok "b.md"]⟩),
        "a.md" ∉ b) ∧
     (∀ b ∈ sentDeleteBatches (sync unaryCodec ⟨10, 1, false⟩
        [("a.md", "never"), ("b.md", "II")] ⟨[], 9, [BatchResult.ok "b.md"]⟩),
        "a.md" ∉ b) ∧
     lookupV (persistedState [("a.md", "never"), ("b.md", "II")]
        (sync unaryCodec ⟨10, 1, false⟩ [("a.md", "never"), ("b.md", "II")]
          ⟨[], 9, [BatchResult.ok "b.md"]⟩)) "a.md" = none) := by
  constructor
  · exact ⟨by decide, by unfold KeysNodup; decide, by decide, by decide, by decide⟩
  · exact C3_never_purge_amended unaryCodec ⟨10, 1, false⟩
      [("a.md", "never"), ("b.md", "II")] ⟨[], 9, [BatchResult.ok "b.md"]⟩ "a.md"
      (by decide) rfl (by unfold KeysNodup; decide) (by decide) (by decide) (by decide)
      ⟨"b.md", "II", by decide, by decide, by decide⟩

/-- C9 witness: one stale entry gone.md and a catalog with one fresh
file; the cycle uploads the fresh file, queues gone.md exactly once,
and the confirmed deletion response removes the entry. -/
theorem C9_deletion_correctness_witness :
    (1 ≤ 1 ∧ KeysNodup [("gone.md", "II")] ∧
     lookupV [("gone.md", "II")] "gone.md" = some "II" ∧ ("II" : String) ≠ "never" ∧
     "gone.md" ∉ ([(("a.md" : String), (0 : Nat))].map (·.1))) ∧
    ((false = false →
      ((sync unaryCodec ⟨10, 1, false⟩ [("gone.md", "II")]
          ⟨[("a.md", 0)], 9, [BatchResult.ok "a.md", BatchResult.ok "gone.md gone"]⟩).res =
            CycleEnd.normal →
        ((cycleTrace (sync unaryCodec ⟨10, 1, false⟩ [("gone.md", "II")]
          ⟨[("a.md", 0)], 9, [BatchResult.ok "a.md", BatchResult.ok "gone.md gone"]⟩)).filterMap
            sendDBatch?).flatten.count "gone.md" = 1) ∧
      (lookupV (sync unaryCodec ⟨10, 1, false⟩ [("gone.md", "II")]
          ⟨[("a.md", 0)], 9, [BatchResult.ok "a.md", BatchResult.ok "gone.md gone"]⟩).final.st
          "gone.md" = none ↔
        ∃ ev ∈ cycleTrace (sync unaryCodec ⟨10, 1, false⟩ [("gone.md", "II")]
          ⟨[("a.md", 0)], 9, [BatchResult.ok "a.md", BatchResult.ok "gone.md gone"]⟩),
          confirmsDelete "gone.md" ev)) ∧
     (false = true →
      (∀ ev ∈ cycleTrace (sync unaryCodec ⟨10, 1, false⟩ [("gone.md", "II")]
          ⟨[("a.md", 0)], 9, [BatchResult.ok "a.md", BatchResult.ok "gone.md gone"]⟩),
        isDeleteSend ev = false) ∧
      lookupV (sync unaryCodec ⟨10, 1, false⟩ [("gone.md", "II")]
          ⟨[("a.md", 0)], 9, [BatchResult.ok "a.md", BatchResult.ok "gone.md gone"]⟩).final.st
        "gone.md" = some "II")) := by
  constructor
  · exact ⟨by decide, by unfold KeysNodup; decide, by decide, by decide, by decide⟩
  · exact C9_deletion_correctness unaryCodec ⟨10, 1, false⟩ [("gone.md", "II")]
      ⟨[("a.md", 0)], 9, [BatchResult.ok "a.md", BatchResult.ok "gone.md gone"]⟩
      "gone.md" "II" (by decide) (by unfold KeysNodup; decide) (by decide) (by decide)
      (by decide)

end KhojSync

namespace KhojSync

/-- C2 amended: running a cycle twice against the same catalog uploads
zero files the second time, provided the first cycle ends normally
with every exchange outcome a success status whose body mentions every
relevant file, the upload candidates fit within the max-uploads
truncation, every catalog modification time is at most the first
cycle's sync timestamp, and the initial state respects the contract of
the state artifact; without the truncation and modification-time
hypotheses the claim is false, as the counterexample shows. -/
theorem C2_idempotence_amended (tc : TimeCodec) (pms : Params) (st0 : SyncMap) (env1 : CycleEnv)
    (t2 : Nat) (rs2 : List BatchResult)
    (hrt : ∀ t, tc.dec (tc.enc t) = some t)
    (hne1 : ∀ t, tc.enc t ≠ "")
    (hne2 : ∀ t, tc.enc t ≠ "never")
    (hbs : 1 ≤ pms.batchSize)
    (hm : pms.manifest = false)
    (hwf : WFState tc st0)
    (hmt : ∀ pm ∈ env1.catalog, pm.2 ≤ env1.syncTime)
    (htr : ∀ cands, detectUploads tc st0 env1.catalog = some cands →
      cands.length ≤ pms.maxUploads)
    (hok : ∀ r ∈ env1.responses, OkAll (env1.catalog.map (·.1) ++ st0.map (·.1)) r)
    (hnorm : (sync tc pms st0 env1).res = CycleEnd.normal) :
    uploadsSent (sync tc pms
      (persistedState st0 (sync tc pms st0 env1)) ⟨env1.catalog, t2, rs2⟩) = 0 := by
  cases hdet : detectUploads tc st0 env1.catalog with
  | none =>
    rw [sync_shape_detectFail tc pms st0 env1 hdet] at hnorm
    simp at hnorm
  | some cands =>
    rcases hup : runBatches (uploadStep (tc.enc env1.syncTime)) ⟨st0, 0, env1.responses⟩
      (chunks pms.batchSize (cands.take pms.maxUploads)) with ⟨s1, prs, e⟩
    have htake : cands.take pms.maxUploads = cands :=
      List.take_of_length_le (htr cands hdet)
    cases e with
    | some e =>
      rw [sync_shape_abort tc pms st0 env1 cands s1 prs e hdet hup] at hnorm
      have h := runBatches_end_ne_normal (uploadStep (tc.enc env1.syncTime))
        (uploadStep_end_ne_normal (tc.enc env1.syncTime))
        (chunks pms.batchSize (cands.take pms.maxUploads)) ⟨st0, 0, env1.responses⟩
      rw [hup] at h
      simp only at hnorm
      rw [hnorm] at h
      exact absurd rfl h
    | none =>
      have hcandcat : ∀ p ∈ cands, p ∈ env1.catalog.map (·.1) :=
        detectUploads_subset tc st0 env1.catalog cands hdet
      have hbatchesU : ∀ b ∈ chunks pms.batchSize (cands.take pms.maxUploads),
          ∀ p ∈ b, p ∈ env1.catalog.map (·.1) ++ st0.map (·.1) := by
        intro b hb p hp
        rw [List.mem_append]
        exact Or.inl (hcandcat p (List.take_subset _ _ (mem_chunks_subset _ _ b hb p hp)))
      have hupOk := uploadLoop_allOk (tc.enc env1.syncTime)
        (env1.catalog.map (·.1) ++ st0.map (·.1))
        (chunks pms.batchSize (cands.take pms.maxUploads)) ⟨st0, 0, env1.responses⟩
        hok hbatchesU (by rw [hup])
      rw [hup] at hupOk
      have hs1st : s1.st =
          cands.foldl (fun st p => setEntry st p (tc.enc env1.syncTime)) st0 := by
        have := hupOk.1
        rwa [chunks_flatten pms.batchSize hbs, htake] at this
      have hs1look : ∀ q, lookupV s1.st q =
          (if q ∈ cands then some (tc.enc env1.syncTime) else lookupV st0 q) := by
        intro q
        rw [hs1st]
        exact lookupV_foldl_set cands st0 (tc.enc env1.syncTime) q
      -- the deletion loop finished
      have hd2 : (runBatches deleteStep
          ⟨purgeNever (env1.catalog.map (·.1)) s1.st, s1.fails, s1.rs⟩
          (chunks pms.batchSize
            (deleteCandidates (env1.catalog.map (·.1)) s1.st))).2.2 = none := by
        rw [sync_shape_full tc pms st0 env1 cands s1 prs hdet hup hm] at hnorm
        cases hdd : (runBatches deleteStep
            ⟨purgeNever (env1.catalog.map (·.1)) s1.st, s1.fails, s1.rs⟩
            (chunks pms.batchSize
              (deleteCandidates (env1.catalog.map (·.1)) s1.st))).2.2 with
        | none => rfl
        | some e2 =>
          exfalso
          rw [hdd] at hnorm
          simp only at hnorm
          have h := runBatches_end_ne_normal deleteStep deleteStep_end_ne_normal
            (chunks pms.batchSize (deleteCandidates (env1.catalog.map (·.1)) s1.st))
            ⟨purgeNever (env1.catalog.map (·.1)) s1.st, s1.fails, s1.rs⟩
          rw [hdd] at h
          rw [hnorm] at h
          exact h rfl
      have hrsOk : ∀ r ∈ s1.rs, OkAll (env1.catalog.map (·.1) ++ st0.map (·.1)) r := by
        intro r hr
        rw [hupOk.2] at hr
        exact hok r (List.drop_subset _ _ hr)
      have hbatchesD : ∀ b ∈ chunks pms.batchSize
          (deleteCandidates (env1.catalog.map (·.1)) s1.st),
          ∀ p ∈ b, p ∈ env1.catalog.map (·.1) ++ st0.map (·.1) := by
        intro b hb p hp
        have hpd : p ∈ deleteCandidates (env1.catalog.map (·.1)) s1.st :=
          mem_chunks_subset _ _ b hb p hp
        have hkey : p ∈ s1.st.map (·.1) := mem_deleteCandidates _ s1.st p hpd
        rw [hs1st] at hkey
        rw [List.mem_append]
        rcases keys_foldl_set_subset cands st0 (tc.enc env1.syncTime) p hkey with h | h
        · exact Or.inr h
        · exact Or.inl (hcandcat p h)
      have hdelOk := deleteLoop_allOk (env1.catalog.map (·.1) ++ st0.map (·.1))
        (chunks pms.batchSize (deleteCandidates (env1.catalog.map (·.1)) s1.st))
        ⟨purgeNever (env1.catalog.map (·.1)) s1.st, s1.fails, s1.rs⟩
        hrsOk hbatchesD hd2
      rw [chunks_flatten pms.batchSize hbs] at hdelOk
      -- on catalog paths the final state looks up like s1.st
      have hfincat : ∀ q ∈ env1.catalog.map (·.1),
          lookupV ((runBatches deleteStep
            ⟨purgeNever (env1.catalog.map (·.1)) s1.st, s1.fails, s1.rs⟩
            (chunks pms.batchSize
              (deleteCandidates (env1.catalog.map (·.1)) s1.st))).1).st q =
          lookupV s1.st q := by
        intro q hq
        rw [hdelOk]
        have hqnd : q ∉ deleteCandidates (env1.catalog.map (·.1)) s1.st := by
          intro hqd
          obtain ⟨v2, _, _, hcont⟩ := mem_deleteCandidates_elim _ s1.st q hqd
          simp at hcont
          obtain ⟨pm2, hpm2, rfl⟩ := List.mem_map.mp hq
          exact hcont pm2.2 hpm2
        rw [lookupV_foldl_del, if_neg hqnd]
        exact lookupV_purgeNever_of_contains _ s1.st q (by simpa using hq)
      -- on catalog paths the persisted artifact looks up like the final state
      have hperscat : ∀ q ∈ env1.catalog.map (·.1),
          lookupV (persistedState st0 (sync tc pms st0 env1)) q = lookupV s1.st q := by
        intro q hq
        rw [sync_shape_full tc pms st0 env1 cands s1 prs hdet hup hm]
        unfold persistedState
        simp only [cycleTrace, List.map_append, List.flatten_append]
        rw [lastPersist?_append]
        cases hD : deleteCandidates (env1.catalog.map (·.1)) s1.st with
        | cons d ds =>
          have hchne : chunks pms.batchSize
              (deleteCandidates (env1.catalog.map (·.1)) s1.st) ≠ [] := by
            rw [hD]
            exact chunks_ne_nil pms.batchSize d ds
          have hlp := runBatches_lastPersist deleteStep deleteStep_lastPersist
            (chunks pms.batchSize (deleteCandidates (env1.catalog.map (·.1)) s1.st))
            ⟨purgeNever (env1.catalog.map (·.1)) s1.st, s1.fails, s1.rs⟩ hd2 hchne
          rw [← hD]
          rw [hlp]
          show lookupV ((runBatches deleteStep _ _).1).st q = _
          exact hfincat q hq
        | nil =>
          show lookupV (((lastPersist? ((List.map (fun x => x.2)
            ((runBatches deleteStep _ ([] : List (List String))).2.1)).flatten)).or
            (lastPersist? ((prs.map (·.2)).flatten))).getD st0) q = _
          simp only [runBatches, List.map_nil, List.flatten_nil]
          rw [show lastPersist? [] = none from rfl]
          rw [Option.none_or]
          cases hcands : cands with
          | nil =>
            have hchU : chunks pms.batchSize (cands.take pms.maxUploads) = [] := by
              rw [htake, hcands]
              rfl
            rw [hchU] at hup
            have : (⟨st0, 0, env1.responses⟩ : LState) = s1 ∧ ([] : List (LState × List Ev)) = prs := by
              have h2 : runBatches (uploadStep (tc.enc env1.syncTime))
                  ⟨st0, 0, env1.responses⟩ ([] : List (List String)) =
                  (⟨st0, 0, env1.responses⟩, [], none) := rfl
              rw [h2] at hup
              exact ⟨congrArg (·.1) hup, congrArg (fun x => x.2.1) hup⟩
            obtain ⟨hS, hP⟩ := this
            rw [← hP]
            simp only [List.map_nil, List.flatten_nil]
            rw [show lastPersist? [] = none from rfl]
            simp only [Option.getD]
            rw [hs1look q]
            rw [hcands]
            simp
          | cons c cs =>
            have hchU : chunks pms.batchSize (cands.take pms.maxUploads) ≠ [] := by
              rw [htake, hcands]
              exact chunks_ne_nil pms.batchSize c cs
            have hlpU := runBatches_lastPersist (uploadStep (tc.enc env1.syncTime))
              (uploadStep_lastPersist (tc.enc env1.syncTime))
              (chunks pms.batchSize (cands.take pms.maxUploads)) ⟨st0, 0, env1.responses⟩
              (by rw [hup]) hchU
            rw [hup] at hlpU
            simp only at hlpU
            rw [hlpU]
            rfl
      -- every catalog file is a non-candidate in the second cycle
      have hcand2 : ∀ pm ∈ env1.catalog,
          uploadCandidate? tc (persistedState st0 (sync tc pms st0 env1)) pm.1 pm.2 =
            some false := by
        intro pm hpm
        have hq : pm.1 ∈ env1.catalog.map (·.1) := List.mem_map.mpr ⟨pm, hpm, rfl⟩
        have hval : lookupV (persistedState st0 (sync tc pms st0 env1)) pm.1 =
            (if pm.1 ∈ cands then some (tc.enc env1.syncTime) else lookupV st0 pm.1) := by
          rw [hperscat pm.1 hq, hs1look pm.1]
        by_cases hc : pm.1 ∈ cands
        · rw [if_pos hc] at hval
          unfold uploadCandidate? lastSyncStr
          rw [hval]
          simp only [hne1 env1.syncTime, if_neg, if_false, hne2 env1.syncTime,
            hrt env1.syncTime]
          have : ¬ (env1.syncTime < pm.2) := by
            have := hmt pm hpm
            omega
          simp [Option.map, this]
        · rw [if_neg hc] at hval
          have hfalse1 : uploadCandidate? tc st0 pm.1 pm.2 = some false :=
            detectUploads_not_mem tc st0 env1.catalog cands hdet pm hpm hc
          unfold uploadCandidate? lastSyncStr at hfalse1 ⊢
          rw [hval]
          exact hfalse1
      have hdet2 : detectUploads tc (persistedState st0 (sync tc pms st0 env1))
          env1.catalog = some [] :=
        detectUploads_all_false tc _ env1.catalog hcand2
      -- the second cycle: no upload candidates, hence no upload exchange
      have hup2 : runBatches (uploadStep (tc.enc t2))
          ⟨persistedState st0 (sync tc pms st0 env1), 0, rs2⟩
          (chunks pms.batchSize (([] : List String).take pms.maxUploads)) =
          (⟨persistedState st0 (sync tc pms st0 env1), 0, rs2⟩, [], none) := by
        rw [List.take_nil]
        rfl
      rw [sync_shape_full tc pms (persistedState st0 (sync tc pms st0 env1))
        ⟨env1.catalog, t2, rs2⟩ [] ⟨persistedState st0 (sync tc pms st0 env1), 0, rs2⟩ []
        hdet2 hup2 hm]
      have hdU2 := runBatches_sends_none deleteStep sendUBatch? deleteStep_filterMap_sendU
        (chunks pms.batchSize (deleteCandidates
          ((⟨env1.catalog, t2, rs2⟩ : CycleEnv).catalog.map (·.1))
          (⟨persistedState st0 (sync tc pms st0 env1), 0, rs2⟩ : LState).st))
        ⟨purgeNever ((⟨env1.catalog, t2, rs2⟩ : CycleEnv).catalog.map (·.1))
          (⟨persistedState st0 (sync tc pms st0 env1), 0, rs2⟩ : LState).st, 0, rs2⟩
      simp only [uploadsSent, sentUploadBatches, cycleTrace, List.map_nil,
        List.flatten_nil, List.nil_append, List.map_append, List.flatten_append,
        List.filterMap_append] at hdU2 ⊢
      rw [hdU2]
      rfl

/-- C2 counterexample: two concrete runs with no filesystem change
between the cycles where the first cycle completes normally yet the
second cycle still uploads a file. First run: two never-synced files
and max-uploads 1, so the first cycle silently drops the second
candidate and the second cycle uploads it. Second run: a file whose
modification time lies beyond the first cycle's sync timestamp, so it
stays an upload candidate forever. -/
theorem C2_counterexample :
    ((sync unaryCodec ⟨1, 1, false⟩ []
        ⟨[("a", 0), ("b", 0)], 1, [BatchResult.ok "a"]⟩).res = CycleEnd.normal ∧
      uploadsSent (sync unaryCodec ⟨1, 1, false⟩
        (persistedState [] (sync unaryCodec ⟨1, 1, false⟩ []
          ⟨[("a", 0), ("b", 0)], 1, [BatchResult.ok "a"]⟩))
        ⟨[("a", 0), ("b", 0)], 2, [BatchResult.ok "b"]⟩) = 1) ∧
    ((sync unaryCodec ⟨5, 5, false⟩ []
        ⟨[("c", 5)], 1, [BatchResult.ok "c"]⟩).res = CycleEnd.normal ∧
      uploadsSent (sync unaryCodec ⟨5, 5, false⟩
        (persistedState [] (sync unaryCodec ⟨5, 5, false⟩ []
          ⟨[("c", 5)], 1, [BatchResult.ok "c"]⟩))
        ⟨[("c", 5)], 2, [BatchResult.ok "c"]⟩) = 1) := by
  refine ⟨⟨?_, ?_⟩, ?_, ?_⟩ <;> decide

/-- C2 witness: a concrete single-file run satisfying every hypothesis
of the amended idempotence theorem, with the conclusion that the
second cycle uploads nothing. -/
theorem C2_idempotence_amended_witness :
    (sync unaryCodec ⟨1, 1, false⟩ []
        ⟨[("a.md", 0)], 1, [BatchResult.ok "a.md"]⟩).res = CycleEnd.normal ∧
    uploadsSent (sync unaryCodec ⟨1, 1, false⟩
      (persistedState [] (sync unaryCodec ⟨1, 1, false⟩ []
        ⟨[("a.md", 0)], 1, [BatchResult.ok "a.md"]⟩))
      ⟨[("a.md", 0)], 2, []⟩) = 0 :=
  ⟨by decide,
   C2_idempotence_amended unaryCodec ⟨1, 1, false⟩ []
     ⟨[("a.md", 0)], 1, [BatchResult.ok "a.md"]⟩ 2 []
     unaryCodec_roundtrip unaryCodec_ne_empty unaryCodec_ne_never
     (by decide) rfl
     (fun kv h => absurd h (List.not_mem_nil kv))
     (by decide)
     (by intro cands h
         rw [show detectUploads unaryCodec []
           [("a.md", 0)] = some ["a.md"] from rfl] at h
         have h2 := Option.some.inj h
         rw [← h2]
         decide)
     (by intro r hr
         simp only [List.mem_singleton] at hr
         rw [hr]
         exact ⟨"a.md", rfl, by decide⟩)
     (by decide)⟩

end KhojSync
